import Mathlib

/-!
Verification development for the page-mapping FTL core
(`ftl/page_mapping.cc` of the SimpleSSD fork under study).

The FTL state machine is embedded shallowly: the mapping table, the
in-use block map and the free-block list are association lists / lists,
simulated time is a `Nat` tick threaded through every operation, and
every fatal abort of the source (its `panic(...)` calls) as well as every
C++ operation that would be undefined (dereferencing `end()`,
decrementing the `end()` iterator of an empty list, `vector::at` out of
range) is modelled by returning `none`.

External collaborators that are not part of the provided sources
(`Block`, the Bloom filters, the PAL, the DRAM model, the error model)
are modelled from the spec: the PAL/DRAM timing functions and the RBER
threshold comparison are abstract parameters collected in `Env`, the
Bloom filter is an exact set of `(level, key)` pairs (a sound model of
its insert/contains contract: no false negatives), and `Block` follows
the spec's description of per-block state.  Floating point comparisons
of the source (`freeBlockRatio() < gcThreshold`, victim weights) are
modelled over `ℚ`.
-/

namespace Ssd

/-! ### Bitset helpers (`util/bitset.hh` is external; these model the
`Bitset` operations the FTL uses on `ioFlag` masks). -/

def bitCount (l : List Bool) : Nat := l.countP id

def bitAnd (a b : List Bool) : List Bool := List.zipWith and a b

def bitOr (a b : List Bool) : List Bool := List.zipWith or a b

def bitAny (l : List Bool) : Bool := l.any id

def bitAll (l : List Bool) : Bool := l.all id

def bitTest (l : List Bool) (i : Nat) : Bool := l.getD i false

def bitFlip (l : List Bool) : List Bool := l.map not

def bitOnes (n : Nat) : List Bool := List.replicate n true

def bitZeros (n : Nat) : List Bool := List.replicate n false

/-- `Bitset` with only bit `i` set (models `ioFlag.reset(); ioFlag.set(idx)`). -/
def oneHot (n i : Nat) : List Bool := (List.range n).map (fun k => k == i)

/-! ### Association-list helpers, modelling `std::unordered_map` with the
exact operations the source uses (`find`, `emplace`, `erase`, in-place
update through an iterator). -/

def lookupKey (k : Nat) : List (Nat × α) → Option α
  | [] => none
  | (k2, v) :: rest => if k2 = k then some v else lookupKey k rest

def updateKey (k : Nat) (v : α) : List (Nat × α) → List (Nat × α)
  | [] => []
  | (k2, w) :: rest => if k2 = k then (k2, v) :: rest else (k2, w) :: updateKey k v rest

def eraseKey (k : Nat) : List (Nat × α) → List (Nat × α)
  | [] => []
  | (k2, w) :: rest => if k2 = k then rest else (k2, w) :: eraseKey k rest

/-- Increment entry `i` of a counter list (per-filter statistics counters). -/
def bumpAt (l : List Nat) (i : Nat) : List Nat := l.set i (l.getD i 0 + 1)

/-! ### Block

Modelled from the spec: `Block` (block.cc/block.hh are not part of the
provided sources).  Per the spec's data model, a block carries per-page,
per-io-unit valid/erased bits and recorded LPNs, a per-io-unit write
pointer, an erase count and two timestamps; `write` sets the valid bit,
clears the erased bit, records the LPN, advances the io-unit's write
pointer and updates the timestamps; `invalidate` clears the valid bit
(idempotent); `read` updates the last-accessed time; `erase` resets all
per-page state and increments the erase count; a block is full when every
io-unit's pointer equals `pages_in_block` (so the no-argument
`getNextWritePageIndex()` is the minimum over io-units). -/
structure Block where
  blockIndex : Nat
  pagesInBlock : Nat
  ioUnitInPage : Nat
  eraseCount : Nat
  validBits : List (List Bool)
  erasedBits : List (List Bool)
  lpnTable : List (List Nat)
  nextWritePage : List Nat
  lastWrittenTime : Nat
  lastAccessedTime : Nat
deriving DecidableEq, Repr

/-- Set entry `(p, i)` of a page-major grid. -/
def setGrid (rows : List (List α)) (p i : Nat) (v : α) : List (List α) :=
  rows.set p ((rows.getD p []).set i v)

def Block.mkInit (idx pages units eraseCnt : Nat) : Block :=
  { blockIndex := idx
    pagesInBlock := pages
    ioUnitInPage := units
    eraseCount := eraseCnt
    validBits := List.replicate pages (List.replicate units false)
    erasedBits := List.replicate pages (List.replicate units true)
    lpnTable := List.replicate pages (List.replicate units 0)
    nextWritePage := List.replicate units 0
    lastWrittenTime := 0
    lastAccessedTime := 0 }

def Block.writePage (b : Block) (page lpn ioUnit tick : Nat) : Block :=
  { b with validBits := setGrid b.validBits page ioUnit true
           erasedBits := setGrid b.erasedBits page ioUnit false
           lpnTable := setGrid b.lpnTable page ioUnit lpn
           nextWritePage := b.nextWritePage.set ioUnit (page + 1)
           lastWrittenTime := tick
           lastAccessedTime := tick }

def Block.invalidate (b : Block) (page ioUnit : Nat) : Block :=
  { b with validBits := setGrid b.validBits page ioUnit false }

def Block.readAccess (b : Block) (tick : Nat) : Block :=
  { b with lastAccessedTime := tick }

def Block.eraseBlock (b : Block) : Block :=
  { b with validBits := List.replicate b.pagesInBlock (List.replicate b.ioUnitInPage false)
           erasedBits := List.replicate b.pagesInBlock (List.replicate b.ioUnitInPage true)
           nextWritePage := List.replicate b.ioUnitInPage 0
           eraseCount := b.eraseCount + 1 }

/-- Number of pages holding at least one valid io-unit (`getValidPageCount`). -/
def Block.validPageCount (b : Block) : Nat :=
  b.validBits.countP (fun row => row.any id)

/-- Total number of valid io-unit slots (`getValidPageCountRaw`). -/
def Block.validPageCountRaw (b : Block) : Nat :=
  (b.validBits.map (fun row => row.countP id)).sum

/-- Write pointer of one io-unit (`getNextWritePageIndex(idx)`). -/
def Block.nextAt (b : Block) (idx : Nat) : Nat := b.nextWritePage.getD idx 0

/-- No-argument `getNextWritePageIndex()`: equals `pagesInBlock` exactly
when every io-unit's pointer does (the spec's notion of a full block). -/
def Block.nextWritePageMin (b : Block) : Nat :=
  b.nextWritePage.foldr min b.pagesInBlock

/-- `getPageInfo`: the valid bitmap of one page. -/
def Block.pageValidBits (b : Block) (p : Nat) : List Bool :=
  b.validBits.getD p (List.replicate b.ioUnitInPage false)

/-- `getPageInfo`: the recorded LPNs of one page. -/
def Block.pageLpns (b : Block) (p : Nat) : List Nat :=
  b.lpnTable.getD p (List.replicate b.ioUnitInPage 0)

/-! ### Configuration and environment -/

/-- GC reclaim-quantity mode (`FTL_GC_MODE`). -/
inductive GCMode where
  | mode0 (reclaimBlock : Nat)
  | mode1 (reclaimThreshold : ℚ)
deriving DecidableEq

/-- Victim-selection policy.  Only the two deterministic policies are
embedded; `POLICY_RANDOM` and `POLICY_DCHOICE` draw from an external
`std::mt19937` and are outside the deterministic fragment the claims
exercise. -/
inductive EvictPolicy where
  | greedy
  | costBenefit
deriving DecidableEq

structure Config where
  totalPhysicalBlocks : Nat
  pagesInBlock : Nat
  ioUnitInPage : Nat
  pageCountToMaxPerf : Nat
  totalLogicalBlocks : Nat
  bRandomTweak : Bool
  gcThresholdRatio : ℚ
  gcMode : GCMode
  evictPolicy : EvictPolicy
  badBlockThreshold : Nat
  refreshPeriod : Nat
  numFilters : Nat
  initialEraseCount : Nat

/-- `bitsetSize` of the source: io-unit granularity under random tweak,
one slot otherwise. -/
def bitsetSize (cfg : Config) : Nat :=
  if cfg.bRandomTweak then cfg.ioUnitInPage else 1

structure PALReq where
  blockIndex : Nat
  pageIndex : Nat
  ioFlag : List Bool
deriving DecidableEq, Repr

/-- One PAL call as recorded in the trace: the request, the tick it was
issued at, and the tick the PAL advanced the cursor to. -/
inductive PalEv where
  | rd (req : PALReq) (beginAt finAt : Nat)
  | wr (req : PALReq) (beginAt finAt : Nat)
  | er (req : PALReq) (beginAt finAt : Nat)
deriving DecidableEq, Repr

/-- External collaborators, modelled from the spec as abstract timing
functions (PAL read/write/erase and DRAM read/write advance the tick
cursor), fixed CPU latencies per operation, and the error model reduced
to the one comparison the FTL makes: `rberGt period eraseCount layer`
stands for `getRBER(period, eraseCount, layer) > 0.01`. -/
structure Env where
  palReadT : PALReq → Nat → Nat
  palWriteT : PALReq → Nat → Nat
  palEraseT : PALReq → Nat → Nat
  dramReadT : Nat → Nat → Nat
  dramWriteT : Nat → Nat → Nat
  latRead : Nat
  latWrite : Nat
  latTrim : Nat
  latFormat : Nat
  latReadInternal : Nat
  latWriteInternal : Nat
  latTrimInternal : Nat
  latEraseInternal : Nat
  latSelectVictim : Nat
  latDoGC : Nat
  rberGt : Nat → Nat → Nat → Bool

/-! ### FTL state -/

structure FTLState where
  table : List (Nat × List (Nat × Nat))
  blocks : List (Nat × Block)
  freeBlocks : List Block
  nFreeBlocks : Nat
  lastFreeBlock : List Nat
  lastFreeBlockIndex : Nat
  lastFreeBlockIOMap : List Bool
  bReclaimMore : Bool
  refreshCallCount : Nat
  bloomInserted : List (Nat × Nat)
  refreshTable : List (Nat × Nat)
  truePositive : List Nat
  falsePositive : List Nat
  trueNegative : List Nat
  actualInsert : List Nat
  retiredBlocks : Nat
  palTrace : List PalEv
deriving DecidableEq, Repr

/-- PAL read wrapper: records the call and returns the advanced cursor. -/
def palRead (env : Env) (s : FTLState) (req : PALReq) (beginAt : Nat) : FTLState × Nat :=
  let fin := env.palReadT req beginAt
  ({ s with palTrace := s.palTrace ++ [PalEv.rd req beginAt fin] }, fin)

def palWrite (env : Env) (s : FTLState) (req : PALReq) (beginAt : Nat) : FTLState × Nat :=
  let fin := env.palWriteT req beginAt
  ({ s with palTrace := s.palTrace ++ [PalEv.wr req beginAt fin] }, fin)

def palErase (env : Env) (s : FTLState) (req : PALReq) (beginAt : Nat) : FTLState × Nat :=
  let fin := env.palEraseT req beginAt
  ({ s with palTrace := s.palTrace ++ [PalEv.er req beginAt fin] }, fin)

/-- `freeBlockRatio()`, a float in the source, over `ℚ`
(`mkRat n d` is the rational `n / d`). -/
def freeBlockRatio (cfg : Config) (s : FTLState) : ℚ :=
  mkRat s.nFreeBlocks cfg.totalPhysicalBlocks

/-- The 64-bit key `(block << 32) | layer` of the Bloom filters and the
refresh table. -/
def mkKey (blockId layer : Nat) : Nat := blockId * 2 ^ 32 + layer

/-- `setRefreshPeriod(block_id, layer_id, rtc)`: update the exact
refresh-table entry to the minimum level, count the actual insertion,
and always insert the key into Bloom level `rtc`. -/
def setRefreshPeriod (s : FTLState) (blockId layer rtc : Nat) : FTLState :=
  let item := mkKey blockId layer
  let s1 :=
    match lookupKey item s.refreshTable with
    | none =>
        { s with refreshTable := (item, rtc) :: s.refreshTable
                 actualInsert := bumpAt s.actualInsert rtc }
    | some cur =>
        if rtc < cur then
          { s with refreshTable := updateKey item rtc s.refreshTable
                   actualInsert := bumpAt s.actualInsert rtc }
        else s
  { s1 with bloomInserted := (rtc, item) :: s1.bloomInserted }

/-- The refresh-registration loop of `writeInternal` (lines 1372-1386):
the counter `i` runs from `bloomFilters.size()` down to `1` with
`j = 2^(i-1)`; the first iteration (`i = size`) unconditionally inserts
level `i-1`; every later iteration inserts level `i-1` exactly when
`getRBER(refresh_period * 10^9 * j, eraseCount, layer) > 0.01`.
`fuel` is the current counter value. -/
def refreshRegLoop (env : Env) (cfg : Config) (blockId eraseCnt layer : Nat) :
    Nat → FTLState → FTLState
  | 0, s => s
  | i + 1, s =>
      let s1 :=
        if i + 1 = cfg.numFilters then
          setRefreshPeriod s blockId layer i
        else if env.rberGt (cfg.refreshPeriod * 1000000000 * 2 ^ i) eraseCnt layer then
          setRefreshPeriod s blockId layer i
        else s
      refreshRegLoop env cfg blockId eraseCnt layer i s1

/-- The level-selection loop of `refresh_event` (lines 299-307): starting
from filter 0, move up one level per trailing zero bit of the call count,
capped at the highest level.  `rem` is `bloomFilters.size() - 1 - target_bf`,
the number of increments still allowed. -/
def bfSelect (rem rc : Nat) : Nat :=
  match rem with
  | 0 => 0
  | rem + 1 => if rc % 2 = 0 then bfSelect rem (rc / 2) + 1 else 0

/-! ### Free-block allocation -/

/-- `getFreeBlock(idx)`: pick the first free block of stripe `idx`
(falling back to the head of the list), move it into the in-use map with
its last-written time set, and decrement the free counter.  `none` models
the fatal aborts ("Index out of range", "Corrupted", "No free block left")
and the undefined dereference when the counter is positive but the list
is empty. -/
def getFreeBlock (cfg : Config) (s : FTLState) (tick idx : Nat) :
    Option (Nat × FTLState) :=
  if cfg.pageCountToMaxPerf ≤ idx then none
  else if 0 < s.nFreeBlocks then
    match s.freeBlocks.find? (fun b => b.blockIndex % cfg.pageCountToMaxPerf = idx) with
    | some b =>
        if (lookupKey b.blockIndex s.blocks).isSome then none
        else
          some (b.blockIndex,
            { s with
                blocks := (b.blockIndex, { b with lastWrittenTime := tick }) :: s.blocks
                freeBlocks :=
                  s.freeBlocks.eraseP
                    (fun bb => bb.blockIndex % cfg.pageCountToMaxPerf = idx)
                nFreeBlocks := s.nFreeBlocks - 1 })
    | none =>
        match s.freeBlocks with
        | [] => none
        | b :: rest =>
            if (lookupKey b.blockIndex s.blocks).isSome then none
            else
              some (b.blockIndex,
                { s with
                    blocks := (b.blockIndex, { b with lastWrittenTime := tick }) :: s.blocks
                    freeBlocks := rest
                    nFreeBlocks := s.nFreeBlocks - 1 })
  else none

/-- The write-target rotation at the head of `getLastFreeBlock`: advance
(modulo the stripe count) and remember the mask when not in random-tweak
mode or when the masks collide, else accumulate the mask. -/
def rotateTarget (cfg : Config) (s : FTLState) (iomap : List Bool) : FTLState :=
  if !cfg.bRandomTweak || bitAny (bitAnd s.lastFreeBlockIOMap iomap) then
    let ni := s.lastFreeBlockIndex + 1
    let ni := if ni = cfg.pageCountToMaxPerf then 0 else ni
    { s with lastFreeBlockIndex := ni, lastFreeBlockIOMap := iomap }
  else
    { s with lastFreeBlockIOMap := bitOr s.lastFreeBlockIOMap iomap }

/-- `getLastFreeBlock(iomap)`: rotate the write target, then — fatal if
the target index is out of the vector or the target is not in the in-use
map ("Corrupted") — replace a full target through `getFreeBlock`,
raising `bReclaimMore`. -/
def getLastFreeBlock (cfg : Config) (s : FTLState) (tick : Nat) (iomap : List Bool) :
    Option (Nat × FTLState) :=
  let s1 := rotateTarget cfg s iomap
  match s1.lastFreeBlock.get? s1.lastFreeBlockIndex with
  | none => none
  | some bid =>
      match lookupKey bid s1.blocks with
      | none => none
      | some blk =>
          if blk.nextWritePageMin = cfg.pagesInBlock then
            match getFreeBlock cfg s1 tick s1.lastFreeBlockIndex with
            | none => none
            | some (nb, s2) =>
                some (nb,
                  { s2 with
                      lastFreeBlock := s2.lastFreeBlock.set s2.lastFreeBlockIndex nb
                      bReclaimMore := true })
          else some (bid, s1)

/-! ### Erase (`eraseInternal`) and the free-list reinsertion -/

/-- Position search of the reverse scan in `eraseInternal` (lines
1509-1525), expressed on the reversed list: walking from the tail of the
free list, the erased block is inserted right after the first block met
whose erase count is `≤` the erased block's; if none is met the walk
stops at `begin` and inserts there. -/
def backScanPos (e : Nat) : List Block → Nat
  | [] => 0
  | b :: rest => if b.eraseCount ≤ e then rest.length + 1 else backScanPos e rest

def insertAt (l : List α) (p : Nat) (a : α) : List α :=
  l.take p ++ a :: l.drop p

/-- The free-list reinsertion of `eraseInternal`.  The source decrements
the `end()` iterator before any emptiness check, which is undefined on an
empty `std::list`; this is modelled by `none`. -/
def freeListReinsert (b : Block) (l : List Block) : Option (List Block) :=
  match l with
  | [] => none
  | _ :: _ => some (insertAt l (backScanPos b.eraseCount l.reverse) b)

/-- `eraseInternal(req, tick)`: fatal if the block is not in use or still
holds valid pages; erase the block state, issue the PAL erase, then
return the block to the free pool iff its post-erase erase count is below
`bad_block_threshold`, else drop it (counted by the ghost field
`retiredBlocks`); finally remove it from the in-use map and charge the
CPU latency. -/
def eraseInternal (env : Env) (cfg : Config) (s : FTLState) (tick : Nat)
    (req : PALReq) : Option (FTLState × Nat) :=
  match lookupKey req.blockIndex s.blocks with
  | none => none
  | some blk =>
      if blk.validPageCount ≠ 0 then none
      else
        let blk1 := blk.eraseBlock
        let s1 := { s with blocks := updateKey req.blockIndex blk1 s.blocks }
        let p := palErase env s1 req tick
        let s2 := p.1
        let t2 := p.2
        if blk1.eraseCount < cfg.badBlockThreshold then
          match freeListReinsert blk1 s2.freeBlocks with
          | none => none
          | some fl =>
              some ({ s2 with
                        freeBlocks := fl
                        nFreeBlocks := s2.nFreeBlocks + 1
                        blocks := eraseKey req.blockIndex s2.blocks },
                    t2 + env.latEraseInternal)
        else
          some ({ s2 with
                    blocks := eraseKey req.blockIndex s2.blocks
                    retiredBlocks := s2.retiredBlocks + 1 },
                t2 + env.latEraseInternal)

/-! ### Trim -/

/-- The per-slot loop of `trimInternal`: for every slot index (all of
them, whatever the request's `ioFlag`), look up the mapped block —
fatal ("Block is not in use") when it is not in the in-use map — and
invalidate the mapped page. -/
def trimIdxLoop (s : FTLState) (ml : List (Nat × Nat)) : List Nat → Option FTLState
  | [] => some s
  | idx :: rest =>
      match ml.get? idx with
      | none => none
      | some mapping =>
          match lookupKey mapping.1 s.blocks with
          | none => none
          | some blk =>
              trimIdxLoop
                { s with blocks := updateKey mapping.1 (blk.invalidate mapping.2 idx) s.blocks }
                ml rest

/-- `trimInternal(req, tick)`: nothing happens (and no latency is
charged) when the LPN is unmapped; otherwise charge the DRAM mapping
read, invalidate every slot, remove the mapping and charge the CPU
latency. -/
def trimInternal (env : Env) (cfg : Config) (s : FTLState) (tick lpn : Nat)
    (ioFlag : List Bool) : Option (FTLState × Nat) :=
  match lookupKey lpn s.table with
  | none => some (s, tick)
  | some ml =>
      let t1 := env.dramReadT (if cfg.bRandomTweak then 8 * bitCount ioFlag else 8) tick
      match trimIdxLoop s ml (List.range (bitsetSize cfg)) with
      | none => none
      | some s1 =>
          some ({ s1 with table := eraseKey lpn s1.table }, t1 + env.latTrimInternal)

/-- Public `trim`: run `trimInternal` and charge the fixed CPU latency. -/
def trimFTL (env : Env) (cfg : Config) (s : FTLState) (tick lpn : Nat)
    (ioFlag : List Bool) : Option (FTLState × Nat) :=
  match trimInternal env cfg s tick lpn ioFlag with
  | none => none
  | some (s1, t1) => some (s1, t1 + env.latTrim)

/-! ### Read -/

/-- The per-slot loop of `readInternal`: for every selected slot whose
mapping is in range, update the block's last-accessed time and issue the
PAL read at the (DRAM-advanced) tick, folding the maximum finish time.
An unmapped in-range block index is fatal ("Block is not in use"). -/
def readIdxLoop (env : Env) (cfg : Config) (s : FTLState) (ml : List (Nat × Nat))
    (ioFlag : List Bool) (tick finishedAt : Nat) : List Nat → Option (FTLState × Nat)
  | [] => some (s, finishedAt)
  | idx :: rest =>
      if bitTest ioFlag idx || !cfg.bRandomTweak then
        match ml.get? idx with
        | none => none
        | some mapping =>
            if mapping.1 < cfg.totalPhysicalBlocks ∧ mapping.2 < cfg.pagesInBlock then
              match lookupKey mapping.1 s.blocks with
              | none => none
              | some blk =>
                  let palReq : PALReq :=
                    { blockIndex := mapping.1
                      pageIndex := mapping.2
                      ioFlag :=
                        if cfg.bRandomTweak then oneHot cfg.ioUnitInPage idx
                        else bitOnes cfg.ioUnitInPage }
                  let s1 :=
                    { s with blocks := updateKey mapping.1 (blk.readAccess tick) s.blocks }
                  let p := palRead env s1 palReq tick
                  readIdxLoop env cfg p.1 ml ioFlag tick (max finishedAt p.2) rest
            else readIdxLoop env cfg s ml ioFlag tick finishedAt rest
      else readIdxLoop env cfg s ml ioFlag tick finishedAt rest

/-- `readInternal(req, tick)`: nothing happens when the LPN is unmapped;
otherwise charge the DRAM mapping read, issue the per-slot PAL reads, and
set the tick to the maximum finish time plus the CPU latency. -/
def readInternal (env : Env) (cfg : Config) (s : FTLState) (tick lpn : Nat)
    (ioFlag : List Bool) : Option (FTLState × Nat) :=
  match lookupKey lpn s.table with
  | none => some (s, tick)
  | some ml =>
      let t1 := env.dramReadT (if cfg.bRandomTweak then 8 * bitCount ioFlag else 8) tick
      match readIdxLoop env cfg s ml ioFlag t1 tick (List.range (bitsetSize cfg)) with
      | none => none
      | some (s1, fin) => some (s1, fin + env.latReadInternal)

/-- Public `read`: an empty `ioFlag` only logs a warning; in both cases
the fixed CPU latency is charged. -/
def readFTL (env : Env) (cfg : Config) (s : FTLState) (tick lpn : Nat)
    (ioFlag : List Bool) : Option (FTLState × Nat) :=
  if 0 < bitCount ioFlag then
    match readInternal env cfg s tick lpn ioFlag with
    | none => none
    | some (s1, t1) => some (s1, t1 + env.latRead)
  else some (s, tick + env.latRead)

/-! ### Victim selection -/

/-- Ascending insertion by weight (models `std::sort` with the
`a.second < b.second` comparator; ties are resolved arbitrarily there and
keep the scan order here). -/
def insertByWeight (x : Nat × ℚ) : List (Nat × ℚ) → List (Nat × ℚ)
  | [] => [x]
  | y :: rest => if x.2 < y.2 then x :: y :: rest else y :: insertByWeight x rest

def sortByWeight (l : List (Nat × ℚ)) : List (Nat × ℚ) :=
  l.foldr insertByWeight []

/-- `calculateVictimWeight`: only full blocks (write pointer at the end)
are candidates; greedy weighs by raw valid count, cost-benefit by
`u / ((1-u) * (tick - last_accessed))` (float arithmetic of the source
modelled over `ℚ`; the `uint64_t` age difference is `Nat` subtraction). -/
def calculateVictimWeight (cfg : Config) (s : FTLState) (tick : Nat) :
    List (Nat × ℚ) :=
  match cfg.evictPolicy with
  | EvictPolicy.greedy =>
      (s.blocks.filter (fun p => p.2.nextWritePageMin = cfg.pagesInBlock)).map
        (fun p => (p.1, (p.2.validPageCountRaw : ℚ)))
  | EvictPolicy.costBenefit =>
      (s.blocks.filter (fun p => p.2.nextWritePageMin = cfg.pagesInBlock)).map
        (fun p =>
          let temp : ℚ := (p.2.validPageCountRaw : ℚ) / (cfg.pagesInBlock : ℚ)
          (p.1, temp / ((1 - temp) * ((tick - p.2.lastAccessedTime : Nat) : ℚ))))

/-- `selectVictimBlock`: compute the reclaim quantity (fixed in mode 0;
`total * threshold - nFreeBlocks` in mode 1, clamped at zero where the
source's float-to-unsigned conversion is undefined for negatives), add
`pageCountToMaxPerf` and reset the flag when `bReclaimMore` is set, then
take the lowest-weight blocks and charge the CPU latency. -/
def selectVictimBlock (env : Env) (cfg : Config) (s : FTLState) (tick : Nat) :
    List Nat × FTLState × Nat :=
  let nBlocks0 : Nat :=
    match cfg.gcMode with
    | GCMode.mode0 r => r
    | GCMode.mode1 t =>
        (Int.floor ((cfg.totalPhysicalBlocks : ℚ) * t) - (s.nFreeBlocks : Int)).toNat
  let p : Nat × FTLState :=
    if s.bReclaimMore then
      (nBlocks0 + cfg.pageCountToMaxPerf, { s with bReclaimMore := false })
    else (nBlocks0, s)
  let sorted := sortByWeight (calculateVictimWeight cfg p.2 tick)
  ((sorted.take (min p.1 sorted.length)).map Prod.fst, p.2, tick + env.latSelectVictim)

/-! ### Garbage collection -/

structure GCReqs where
  reads : List PALReq
  writes : List PALReq
  erases : List PALReq
deriving DecidableEq, Repr

/-- The per-slot migration loop of `doGarbageCollection` (lines 723-761):
invalidate the source slot, look up the LPN's mapping (fatal when
missing), charge the DRAM mapping read, redirect the mapping to the next
free page of the target block, perform the block-level write (the
source's `beginAt` is still uninitialized at this point; the timestamp it
passes is modelled as 0) and queue the PAL write request. -/
def gcCollectIdxLoop (env : Env) (cfg : Config) (s : FTLState) (tick : Nat)
    (srcBlockId pageIndex freeBlockId : Nat) (lpns : List Nat) (bit : List Bool)
    (ws : List PALReq) : List Nat → Option (FTLState × Nat × List PALReq)
  | [] => some (s, tick, ws)
  | idx :: rest =>
      if bitTest bit idx then
        match lookupKey srcBlockId s.blocks with
        | none => none
        | some src =>
            let s1 :=
              { s with blocks := updateKey srcBlockId (src.invalidate pageIndex idx) s.blocks }
            match lpns.get? idx with
            | none => none
            | some lpn =>
                match lookupKey lpn s1.table with
                | none => none
                | some ml =>
                    let t1 := env.dramReadT (8 * cfg.ioUnitInPage) tick
                    match ml.get? idx with
                    | none => none
                    | some _ =>
                        match lookupKey freeBlockId s1.blocks with
                        | none => none
                        | some fb =>
                            let newPageIdx := fb.nextAt idx
                            let s2 :=
                              { s1 with
                                  table := updateKey lpn (ml.set idx (freeBlockId, newPageIdx)) s1.table }
                            let s3 :=
                              { s2 with
                                  blocks := updateKey freeBlockId (fb.writePage newPageIdx lpn idx 0) s2.blocks }
                            let wreq : PALReq :=
                              { blockIndex := freeBlockId
                                pageIndex := newPageIdx
                                ioFlag :=
                                  if cfg.bRandomTweak then oneHot cfg.ioUnitInPage idx
                                  else bitOnes cfg.ioUnitInPage }
                            gcCollectIdxLoop env cfg s3 t1 srcBlockId pageIndex freeBlockId
                              lpns bit (ws ++ [wreq]) rest
      else gcCollectIdxLoop env cfg s tick srcBlockId pageIndex freeBlockId lpns bit ws rest

/-- The per-page loop of `doGarbageCollection`: pages with at least one
valid io-unit get a target page from `getLastFreeBlock`, a queued PAL
read of the source page and the per-slot migration. -/
def gcCollectPageLoop (env : Env) (cfg : Config) (s : FTLState) (tick : Nat)
    (srcBlockId : Nat) (rs ws : List PALReq) :
    List Nat → Option (FTLState × Nat × List PALReq × List PALReq)
  | [] => some (s, tick, rs, ws)
  | pageIndex :: rest =>
      match lookupKey srcBlockId s.blocks with
      | none => none
      | some blk =>
          let lpns := blk.pageLpns pageIndex
          let bit0 := blk.pageValidBits pageIndex
          if bitAny bit0 then
            let bit := if !cfg.bRandomTweak then bitOnes cfg.ioUnitInPage else bit0
            match getLastFreeBlock cfg s tick bit with
            | none => none
            | some (freeId, s1) =>
                let rreq : PALReq :=
                  { blockIndex := srcBlockId, pageIndex := pageIndex, ioFlag := bit }
                match gcCollectIdxLoop env cfg s1 tick srcBlockId pageIndex freeId lpns bit
                    ws (List.range (bitsetSize cfg)) with
                | none => none
                | some (s2, t2, ws2) =>
                    gcCollectPageLoop env cfg s2 t2 srcBlockId (rs ++ [rreq]) ws2 rest
          else gcCollectPageLoop env cfg s tick srcBlockId rs ws rest

/-- The per-victim loop of `doGarbageCollection`: fatal when a victim is
not in use ("Invalid block"); migrate all its valid pages and queue its
erase request. -/
def gcCollectBlockLoop (env : Env) (cfg : Config) (s : FTLState) (tick : Nat)
    (rs ws es : List PALReq) : List Nat → Option (FTLState × Nat × GCReqs)
  | [] => some (s, tick, ⟨rs, ws, es⟩)
  | bid :: rest =>
      if (lookupKey bid s.blocks).isNone then none
      else
        match gcCollectPageLoop env cfg s tick bid rs ws (List.range cfg.pagesInBlock) with
        | none => none
        | some (s1, t1, rs1, ws1) =>
            let ereq : PALReq :=
              { blockIndex := bid, pageIndex := 0, ioFlag := bitOnes cfg.ioUnitInPage }
            gcCollectBlockLoop env cfg s1 t1 rs1 ws1 (es ++ [ereq]) rest

/-- Read phase of the GC I/O: every read is issued at the (fixed)
post-collection tick; the fold starts from the pre-GC tick, matching the
initialization `readFinishedAt = tick` of the source. -/
def gcReadPhase (env : Env) (tick : Nat) : List PALReq → FTLState → Nat → FTLState × Nat
  | [], s, rf => (s, rf)
  | r :: rest, s, rf =>
      let p := palRead env s r tick
      gcReadPhase env tick rest p.1 (max rf p.2)

/-- Write phase: every write is issued at `readFinishedAt`. -/
def gcWritePhase (env : Env) (rf : Nat) : List PALReq → FTLState → Nat → FTLState × Nat
  | [], s, wf => (s, wf)
  | r :: rest, s, wf =>
      let p := palWrite env s r rf
      gcWritePhase env rf rest p.1 (max wf p.2)

/-- Erase phase: every erase is handed to `eraseInternal` at
`readFinishedAt`, in parallel with the writes. -/
def gcErasePhase (env : Env) (cfg : Config) (rf : Nat) :
    List PALReq → FTLState → Nat → Option (FTLState × Nat)
  | [], s, ef => some (s, ef)
  | r :: rest, s, ef =>
      match eraseInternal env cfg s rf r with
      | none => none
      | some (s1, t1) => gcErasePhase env cfg rf rest s1 (max ef t1)

/-- `doGarbageCollection(blocksToReclaim, tick)`: early return on an
empty victim list; otherwise collect all requests (mutating map, blocks
and tick), then run the read, write and erase phases and set the tick to
the later of the write and erase finishes plus the CPU latency. -/
def doGarbageCollection (env : Env) (cfg : Config) (s : FTLState) (tick : Nat)
    (list : List Nat) : Option (FTLState × Nat) :=
  if list.isEmpty then some (s, tick)
  else
    match gcCollectBlockLoop env cfg s tick [] [] [] list with
    | none => none
    | some (s1, t1, reqs) =>
        let pr := gcReadPhase env t1 reqs.reads s1 tick
        let pw := gcWritePhase env pr.2 reqs.writes pr.1 tick
        match gcErasePhase env cfg pr.2 reqs.erases pw.1 tick with
        | none => none
        | some (s4, ef) => some (s4, max pw.2 ef + env.latDoGC)

/-! ### Write -/

/-- The invalidation loop at the head of `writeInternal`: for every
selected slot whose existing mapping is in range, invalidate the old
page.  The source dereferences the result of `blocks.find` without a
check here; a missing block is undefined and modelled as `none`. -/
def invalidateOldLoop (cfg : Config) (s : FTLState) (ml : List (Nat × Nat))
    (ioFlag : List Bool) : List Nat → Option FTLState
  | [] => some s
  | idx :: rest =>
      if bitTest ioFlag idx || !cfg.bRandomTweak then
        match ml.get? idx with
        | none => none
        | some mapping =>
            if mapping.1 < cfg.totalPhysicalBlocks ∧ mapping.2 < cfg.pagesInBlock then
              match lookupKey mapping.1 s.blocks with
              | none => none
              | some blk =>
                  invalidateOldLoop cfg
                    { s with blocks := updateKey mapping.1 (blk.invalidate mapping.2 idx) s.blocks }
                    ml ioFlag rest
            else invalidateOldLoop cfg s ml ioFlag rest
      else invalidateOldLoop cfg s ml ioFlag rest

/-- The main per-slot loop of `writeInternal`: allocate the next page of
the target block, write it, optionally read the old page first
(read-before-write, with the flipped io-mask), redirect the mapping,
optionally issue the PAL write, and — only when the write goes to the
PAL — run the Bloom refresh registration for the written layer. -/
def writeIdxLoop (env : Env) (cfg : Config) (sendToPAL readBeforeWrite : Bool)
    (lpn : Nat) (ioFlag : List Bool) (blockId tick : Nat) (s : FTLState)
    (finishedAt : Nat) : List Nat → Option (FTLState × Nat)
  | [] => some (s, finishedAt)
  | idx :: rest =>
      if bitTest ioFlag idx || !cfg.bRandomTweak then
        match lookupKey blockId s.blocks with
        | none => none
        | some blk =>
            match lookupKey lpn s.table with
            | none => none
            | some ml =>
                match ml.get? idx with
                | none => none
                | some oldMapping =>
                    let pageIndex := blk.nextAt idx
                    let s1 :=
                      { s with blocks := updateKey blockId (blk.writePage pageIndex lpn idx tick) s.blocks }
                    let p2 :=
                      if readBeforeWrite && sendToPAL then
                        palRead env s1
                          { blockIndex := oldMapping.1
                            pageIndex := oldMapping.2
                            ioFlag := bitFlip ioFlag } tick
                      else (s1, tick)
                    let s3 :=
                      { p2.1 with table := updateKey lpn (ml.set idx (blockId, pageIndex)) p2.1.table }
                    let p4 :=
                      if sendToPAL then
                        palWrite env s3
                          { blockIndex := blockId
                            pageIndex := pageIndex
                            ioFlag :=
                              if cfg.bRandomTweak then oneHot cfg.ioUnitInPage idx
                              else bitOnes cfg.ioUnitInPage } p2.2
                      else (s3, p2.2)
                    let s5 :=
                      if sendToPAL then
                        refreshRegLoop env cfg blockId blk.eraseCount (pageIndex % 64)
                          cfg.numFilters p4.1
                      else p4.1
                    writeIdxLoop env cfg sendToPAL readBeforeWrite lpn ioFlag blockId tick
                      s5 (max finishedAt p4.2) rest
      else
        writeIdxLoop env cfg sendToPAL readBeforeWrite lpn ioFlag blockId tick s
          finishedAt rest

/-- The on-demand GC tail of `writeInternal`: triggered when the free
ratio drops below the threshold; fatal during initialization
(`sendToPAL = false`).  The GC runs on a copy of the tick, so the
caller's tick is not advanced by it. -/
def writeGCTail (env : Env) (cfg : Config) (sendToPAL : Bool) (s : FTLState)
    (tick : Nat) : Option (FTLState × Nat) :=
  if freeBlockRatio cfg s < cfg.gcThresholdRatio then
    if !sendToPAL then none
    else
      let sel := selectVictimBlock env cfg s tick
      match doGarbageCollection env cfg sel.2.1 sel.2.2 sel.1 with
      | none => none
      | some (s6, _) => some (s6, tick)
  else some (s, tick)

/-- `writeInternal(req, tick, sendToPAL)` (lines 1261-1454). -/
def writeInternal (env : Env) (cfg : Config) (s : FTLState) (tick lpn : Nat)
    (ioFlag : List Bool) (sendToPAL : Bool) : Option (FTLState × Nat) :=
  let mapped :=
    match lookupKey lpn s.table with
    | some ml => invalidateOldLoop cfg s ml ioFlag (List.range (bitsetSize cfg))
    | none =>
        some { s with
                 table := (lpn, List.replicate (bitsetSize cfg)
                   (cfg.totalPhysicalBlocks, cfg.pagesInBlock)) :: s.table }
  match mapped with
  | none => none
  | some s1 =>
      match getLastFreeBlock cfg s1 tick ioFlag with
      | none => none
      | some (blockId, s2) =>
          if (lookupKey blockId s2.blocks).isNone then none
          else
            let sz := if cfg.bRandomTweak then 8 * bitCount ioFlag else 8
            let t1 :=
              if sendToPAL then env.dramWriteT sz (env.dramReadT sz tick) else tick
            let rbw := !cfg.bRandomTweak && !bitAll ioFlag
            match writeIdxLoop env cfg sendToPAL rbw lpn ioFlag blockId t1 s2 tick
                (List.range (bitsetSize cfg)) with
            | none => none
            | some (s3, fin) =>
                let t4 := if sendToPAL then fin + env.latWriteInternal else tick
                writeGCTail env cfg sendToPAL s3 t4

/-- Public `write`: an empty `ioFlag` only logs a warning; in both cases
the fixed CPU latency is charged. -/
def writeFTL (env : Env) (cfg : Config) (s : FTLState) (tick lpn : Nat)
    (ioFlag : List Bool) : Option (FTLState × Nat) :=
  if 0 < bitCount ioFlag then
    match writeInternal env cfg s tick lpn ioFlag true with
    | none => none
    | some (s1, t1) => some (s1, t1 + env.latWrite)
  else some (s, tick + env.latWrite)

/-! ### Refresh -/

/-- The per-slot copy loop of `refreshPage` (lines 1103-1153): like the
GC migration, but the source page's slot is invalidated first and a
missing mapping entry is tolerated (skipped) as a Bloom false positive
instead of being fatal.  `t0` is the tick `refreshPage` was entered at
(the source's still-unreassigned `beginAt`), used as the block write
timestamp. -/
def refreshIdxLoop (env : Env) (cfg : Config) (s : FTLState) (tick t0 : Nat)
    (srcBlockId pageIndex freeBlockId : Nat) (lpns : List Nat) (bit : List Bool)
    (ws : List PALReq) : List Nat → Option (FTLState × Nat × List PALReq)
  | [] => some (s, tick, ws)
  | idx :: rest =>
      if bitTest bit idx then
        match lookupKey srcBlockId s.blocks with
        | none => none
        | some src =>
            let s1 :=
              { s with blocks := updateKey srcBlockId (src.invalidate pageIndex idx) s.blocks }
            match lpns.get? idx with
            | none => none
            | some lpn =>
                match lookupKey lpn s1.table with
                | none =>
                    refreshIdxLoop env cfg s1 tick t0 srcBlockId pageIndex freeBlockId
                      lpns bit ws rest
                | some ml =>
                    let t1 := env.dramReadT (8 * cfg.ioUnitInPage) tick
                    match ml.get? idx with
                    | none => none
                    | some _ =>
                        match lookupKey freeBlockId s1.blocks with
                        | none => none
                        | some fb =>
                            let newPageIdx := fb.nextAt idx
                            let s2 :=
                              { s1 with
                                  table := updateKey lpn (ml.set idx (freeBlockId, newPageIdx)) s1.table }
                            let s3 :=
                              { s2 with
                                  blocks := updateKey freeBlockId (fb.writePage newPageIdx lpn idx t0) s2.blocks }
                            let wreq : PALReq :=
                              { blockIndex := freeBlockId
                                pageIndex := newPageIdx
                                ioFlag :=
                                  if cfg.bRandomTweak then oneHot cfg.ioUnitInPage idx
                                  else bitOnes cfg.ioUnitInPage }
                            refreshIdxLoop env cfg s3 t1 t0 srcBlockId pageIndex freeBlockId
                              lpns bit (ws ++ [wreq]) rest
      else refreshIdxLoop env cfg s tick t0 srcBlockId pageIndex freeBlockId lpns bit ws rest

/-- The per-page loop of `refreshPage`, over the pages of one layer
(`pageIndex = layer, layer+64, ...`); its guard is the block-level valid
count of the source. -/
def refreshPageLoop (env : Env) (cfg : Config) (s : FTLState) (tick t0 : Nat)
    (srcBlockId : Nat) (rs ws : List PALReq) :
    List Nat → Option (FTLState × Nat × List PALReq × List PALReq)
  | [] => some (s, tick, rs, ws)
  | pageIndex :: rest =>
      match lookupKey srcBlockId s.blocks with
      | none => none
      | some blk =>
          if blk.validPageCount ≠ 0 then
            let lpns := blk.pageLpns pageIndex
            let bit0 := blk.pageValidBits pageIndex
            let bit := if !cfg.bRandomTweak then bitOnes cfg.ioUnitInPage else bit0
            match getLastFreeBlock cfg s tick bit with
            | none => none
            | some (freeId, s1) =>
                let rreq : PALReq :=
                  { blockIndex := srcBlockId, pageIndex := pageIndex, ioFlag := bit }
                match refreshIdxLoop env cfg s1 tick t0 srcBlockId pageIndex freeId lpns bit
                    ws (List.range (bitsetSize cfg)) with
                | none => none
                | some (s2, t2, ws2) =>
                    refreshPageLoop env cfg s2 t2 t0 srcBlockId (rs ++ [rreq]) ws2 rest
          else refreshPageLoop env cfg s tick t0 srcBlockId rs ws rest

/-- The pages of layer `layer` inside a block:
`layer, layer + 64, ...` below `pagesInBlock` (the source hardcodes the
64-page layer stride). -/
def layerPages (pagesInBlock layer : Nat) : List Nat :=
  (List.range pagesInBlock).filter (fun p => layer ≤ p ∧ (p - layer) % 64 = 0)

/-- `refreshPage(blockIndex, layerNum, tick)`: run a GC cycle first when
the free ratio is below the threshold (on a copy of the tick, which is
then discarded); return silently when the block is not in use (Bloom
false positive); otherwise migrate the layer's valid pages and run the
read/write I/O phases, leaving the tick at the later of the read and
write finishes plus the CPU latency. -/
def refreshPage (env : Env) (cfg : Config) (s : FTLState) (tick blockIndex layer : Nat) :
    Option (FTLState × Nat) :=
  let pre :=
    if freeBlockRatio cfg s < cfg.gcThresholdRatio then
      let sel := selectVictimBlock env cfg s tick
      match doGarbageCollection env cfg sel.2.1 sel.2.2 sel.1 with
      | none => none
      | some (sg, _) => some sg
    else some s
  match pre with
  | none => none
  | some s0 =>
      match lookupKey blockIndex s0.blocks with
      | none => some (s0, tick)
      | some _ =>
          match refreshPageLoop env cfg s0 tick tick blockIndex [] []
              (layerPages cfg.pagesInBlock layer) with
          | none => none
          | some (s1, t1, rs, ws) =>
              let pr := gcReadPhase env t1 rs s1 tick
              let pw := gcWritePhase env pr.2 ws pr.1 tick
              some (pw.1, max pw.2 pr.2 + env.latDoGC)

/-- The per-layer sweep loop of `refresh_event`: classify each Bloom hit
against the exact refresh table (true/false positive counters), count the
misses as true negatives, and refresh every hit. -/
def refreshSweepLayerLoop (env : Env) (cfg : Config) (targetBF blockIdx : Nat)
    (s : FTLState) (tick : Nat) : List Nat → Option (FTLState × Nat)
  | [] => some (s, tick)
  | j :: rest =>
      let item := mkKey blockIdx j
      if (targetBF, item) ∈ s.bloomInserted then
        let hit : Bool :=
          match lookupKey item s.refreshTable with
          | some lvl => lvl ≤ targetBF
          | none => false
        let s1 :=
          if hit then { s with truePositive := bumpAt s.truePositive targetBF }
          else { s with falsePositive := bumpAt s.falsePositive targetBF }
        match refreshPage env cfg s1 tick blockIdx j with
        | none => none
        | some (s2, t2) => refreshSweepLayerLoop env cfg targetBF blockIdx s2 t2 rest
      else
        refreshSweepLayerLoop env cfg targetBF blockIdx
          { s with trueNegative := bumpAt s.trueNegative targetBF } tick rest

def refreshSweepBlockLoop (env : Env) (cfg : Config) (targetBF : Nat)
    (s : FTLState) (tick : Nat) : List Nat → Option (FTLState × Nat)
  | [] => some (s, tick)
  | i :: rest =>
      match refreshSweepLayerLoop env cfg targetBF i s tick (List.range 64) with
      | none => none
      | some (s1, t1) => refreshSweepBlockLoop env cfg targetBF s1 t1 rest

/-- `refresh_event(tick)` (lines 288-343): select the Bloom level to
sweep from the trailing zeros of the pre-increment `refreshCallCount`
(capped at the highest level), sweep every (block, layer) key of that
level, and only then advance `refreshCallCount` by one. -/
def refresh_event (env : Env) (cfg : Config) (s : FTLState) (tick : Nat) :
    Option (FTLState × Nat) :=
  let targetBF := bfSelect (cfg.numFilters - 1) s.refreshCallCount
  match refreshSweepBlockLoop env cfg targetBF s tick
      (List.range cfg.totalPhysicalBlocks) with
  | none => none
  | some (s1, t1) =>
      some ({ s1 with refreshCallCount := s1.refreshCallCount + 1 }, t1)

/-! ### Format -/

/-- The per-slot loop of the trim phase of `format`: invalidate every
slot's mapped page (fatal when the mapped block is not in use) and
collect the affected block indices. -/
def formatIdxLoop (s : FTLState) (ml : List (Nat × Nat)) (acc : List Nat) :
    List Nat → Option (FTLState × List Nat)
  | [] => some (s, acc)
  | idx :: rest =>
      match ml.get? idx with
      | none => none
      | some mapping =>
          match lookupKey mapping.1 s.blocks with
          | none => none
          | some blk =>
              formatIdxLoop
                { s with blocks := updateKey mapping.1 (blk.invalidate mapping.2 idx) s.blocks }
                ml (acc ++ [mapping.1]) rest

/-- The table scan of `format`: every mapping whose LPN falls in the
range is trimmed and removed (the source erases the entry while
iterating; the scan here runs over the entry snapshot). -/
def formatEntryLoop (cfg : Config) (s : FTLState) (slpn nlp : Nat) (acc : List Nat) :
    List (Nat × List (Nat × Nat)) → Option (FTLState × List Nat)
  | [] => some (s, acc)
  | (lpn, ml) :: rest =>
      if slpn ≤ lpn ∧ lpn < slpn + nlp then
        match formatIdxLoop s ml acc (List.range (bitsetSize cfg)) with
        | none => none
        | some (s1, acc1) =>
            formatEntryLoop cfg { s1 with table := eraseKey lpn s1.table } slpn nlp acc1 rest
      else formatEntryLoop cfg s slpn nlp acc rest

/-- Ascending insertion (models `std::sort` on the collected indices). -/
def insertNat (x : Nat) : List Nat → List Nat
  | [] => [x]
  | y :: r => if x < y then x :: y :: r else y :: insertNat x r

def sortNats (l : List Nat) : List Nat := l.foldr insertNat []

/-- `std::unique`, tail of a run: drop elements equal to the last kept
one. -/
def dedupAdjAux (prev : Nat) : List Nat → List Nat
  | [] => []
  | y :: r => if y = prev then dedupAdjAux prev r else y :: dedupAdjAux y r

/-- `std::unique`: drop consecutive duplicates, keeping the first of
each run. -/
def dedupAdj : List Nat → List Nat
  | [] => []
  | x :: r => x :: dedupAdjAux x r

/-- `format(range, tick)` (lines 411-452): trim every mapped LPN of the
range, sort and deduplicate the affected block indices, run GC on that
set (whether or not the blocks are full), and charge the CPU latency. -/
def formatFTL (env : Env) (cfg : Config) (s : FTLState) (tick slpn nlp : Nat) :
    Option (FTLState × Nat) :=
  match formatEntryLoop cfg s slpn nlp [] s.table with
  | none => none
  | some (s1, list) =>
      match doGarbageCollection env cfg s1 tick (dedupAdj (sortNats list)) with
      | none => none
      | some (s2, t2) => some (s2, t2 + env.latFormat)

/-! ### Construction and initialization -/

def initFreeBlocks (cfg : Config) : List Block :=
  (List.range cfg.totalPhysicalBlocks).map
    (fun i => Block.mkInit i cfg.pagesInBlock cfg.ioUnitInPage cfg.initialEraseCount)

/-- The constructor's allocation loop: one current write target per
parallel stripe. -/
def allocLastFreeLoop (cfg : Config) (s : FTLState) (acc : List Nat) :
    List Nat → Option (FTLState × List Nat)
  | [] => some (s, acc)
  | i :: rest =>
      match getFreeBlock cfg s 0 i with
      | none => none
      | some (bid, s1) => allocLastFreeLoop cfg s1 (acc ++ [bid]) rest

/-- The state after the constructor and the refresh setup of
`initialize()` (warmup filling is configuration-dependent and modelled as
disabled, i.e. `fill_ratio = 0`): all blocks free, per-stripe write
targets allocated, `refreshCallCount = 1`, empty Bloom filters and
zeroed counters. -/
def mkInitState (cfg : Config) : Option FTLState :=
  let s0 : FTLState :=
    { table := []
      blocks := []
      freeBlocks := initFreeBlocks cfg
      nFreeBlocks := cfg.totalPhysicalBlocks
      lastFreeBlock := List.replicate cfg.pageCountToMaxPerf 0
      lastFreeBlockIndex := 0
      lastFreeBlockIOMap := bitZeros cfg.ioUnitInPage
      bReclaimMore := false
      refreshCallCount := 1
      bloomInserted := []
      refreshTable := []
      truePositive := List.replicate cfg.numFilters 0
      falsePositive := List.replicate cfg.numFilters 0
      trueNegative := List.replicate cfg.numFilters 0
      actualInsert := List.replicate cfg.numFilters 0
      retiredBlocks := 0
      palTrace := [] }
  match allocLastFreeLoop cfg s0 [] (List.range cfg.pageCountToMaxPerf) with
  | none => none
  | some (s1, ids) => some { s1 with lastFreeBlock := ids }

/-! ### The public operations as a step relation -/

/-- One public FTL operation, as fired by the host dispatcher or the
event engine, on a (state, tick) pair. -/
inductive PubStep (env : Env) (cfg : Config) :
    FTLState × Nat → FTLState × Nat → Prop
  | read (s : FTLState) (t lpn : Nat) (ioFlag : List Bool) (s2 : FTLState) (t2 : Nat)
      (h : readFTL env cfg s t lpn ioFlag = some (s2, t2)) :
      PubStep env cfg (s, t) (s2, t2)
  | write (s : FTLState) (t lpn : Nat) (ioFlag : List Bool) (s2 : FTLState) (t2 : Nat)
      (h : writeFTL env cfg s t lpn ioFlag = some (s2, t2)) :
      PubStep env cfg (s, t) (s2, t2)
  | trim (s : FTLState) (t lpn : Nat) (ioFlag : List Bool) (s2 : FTLState) (t2 : Nat)
      (h : trimFTL env cfg s t lpn ioFlag = some (s2, t2)) :
      PubStep env cfg (s, t) (s2, t2)
  | format (s : FTLState) (t slpn nlp : Nat) (s2 : FTLState) (t2 : Nat)
      (h : formatFTL env cfg s t slpn nlp = some (s2, t2)) :
      PubStep env cfg (s, t) (s2, t2)
  | refresh (s : FTLState) (t : Nat) (s2 : FTLState) (t2 : Nat)
      (h : refresh_event env cfg s t = some (s2, t2)) :
      PubStep env cfg (s, t) (s2, t2)

/-- States reachable from the freshly initialized FTL by public
operations. -/
inductive Reachable (env : Env) (cfg : Config) : FTLState × Nat → Prop
  | init (s0 : FTLState) (h : mkInitState cfg = some s0) : Reachable env cfg (s0, 0)
  | step (st st2 : FTLState × Nat) (h : Reachable env cfg st)
      (h2 : PubStep env cfg st st2) : Reachable env cfg st2

/-! ### Concrete scenario artifacts

A zero-latency environment and a tiny configuration, used to run the
embedded operations on explicit inputs (§8 of the spec uses the same
scale of configuration for its end-to-end scenarios). -/

/-- Zero-latency environment: PAL/DRAM return the cursor unchanged, all
CPU latencies are zero, and every RBER prediction is below the ECC
threshold. -/
def envId : Env :=
  { palReadT := fun _ t => t
    palWriteT := fun _ t => t
    palEraseT := fun _ t => t
    dramReadT := fun _ t => t
    dramWriteT := fun _ t => t
    latRead := 0, latWrite := 0, latTrim := 0, latFormat := 0
    latReadInternal := 0, latWriteInternal := 0, latTrimInternal := 0
    latEraseInternal := 0, latSelectVictim := 0, latDoGC := 0
    rberGt := fun _ _ _ => false }

/-- `envId` with an error model whose RBER exceeds the ECC threshold
exactly for retention periods of at least `2·10^9` ns (monotone in the
period, as the spec requires of the error model). -/
def envC1 : Env := { envId with rberGt := fun p _ _ => decide (2000000000 ≤ p) }

/-- `envId` with a DRAM model that charges one tick per read. -/
def envC6 : Env := { envId with dramReadT := fun _ t => t + 1 }

/-- Two blocks of one page each, one io-unit, one parallel stripe, GC
threshold zero (never triggered from the write path), bad-block
threshold 1 (the first erase retires a block), two Bloom levels. -/
def cfgA : Config :=
  { totalPhysicalBlocks := 2
    pagesInBlock := 1
    ioUnitInPage := 1
    pageCountToMaxPerf := 1
    totalLogicalBlocks := 2
    bRandomTweak := false
    gcThresholdRatio := 0
    gcMode := GCMode.mode0 1
    evictPolicy := EvictPolicy.greedy
    badBlockThreshold := 1
    refreshPeriod := 1
    numFilters := 2
    initialEraseCount := 0 }

/-- `cfgA` in random-tweak mode with two io-units, two pages, four
blocks and a high bad-block threshold. -/
def cfg9 : Config :=
  { cfgA with
      ioUnitInPage := 2
      bRandomTweak := true
      pagesInBlock := 2
      totalPhysicalBlocks := 4
      badBlockThreshold := 100 }

def emptyState : FTLState :=
  { table := [], blocks := [], freeBlocks := [], nFreeBlocks := 0
    lastFreeBlock := [], lastFreeBlockIndex := 0, lastFreeBlockIOMap := []
    bReclaimMore := false, refreshCallCount := 0, bloomInserted := []
    refreshTable := [], truePositive := [], falsePositive := [], trueNegative := []
    actualInsert := [], retiredBlocks := 0, palTrace := [] }

def stInitA : FTLState := (mkInitState cfgA).getD emptyState

/-- The state after writing LPN 0 (full io-map) on the fresh `cfgA` FTL. -/
def stWriteA : FTLState := ((writeFTL envId cfgA stInitA 0 0 [true]).getD (emptyState, 0)).1

/-- The state after the same write under the `envC1` error model. -/
def stW1 : FTLState := ((writeFTL envC1 cfgA stInitA 0 0 [true]).getD (emptyState, 0)).1

/-- `stInitA` at the firing whose pre-increment call count is 2. -/
def stC2 : FTLState := { stInitA with refreshCallCount := 2 }

/-- The state after trimming LPN 0 on the written `cfgA` FTL. -/
def stTrimA : FTLState :=
  ((trimFTL envId cfgA stWriteA 0 0 [true]).getD (emptyState, 0)).1

/-- The collection result of a GC of block 0 on the written `cfgA` FTL
under `envC6`: the state, the post-collection tick and the queued
read/write/erase requests. -/
def gcColC6 : FTLState × Nat × GCReqs :=
  (gcCollectBlockLoop envC6 cfgA stWriteA 0 [] [] [] [0]).getD
    (emptyState, 0, ⟨[], [], []⟩)

/-- The full GC of block 0 on the written `cfgA` FTL under `envC6`. -/
def gcRunC6 : FTLState × Nat :=
  (doGarbageCollection envC6 cfgA stWriteA 0 [0]).getD (emptyState, 0)

def stInit9 : FTLState := (mkInitState cfg9).getD emptyState

/-- The state after a first write of LPN 0 with the partial io-map
`[true, false]` under random tweak: slot 1 keeps the sentinel mapping. -/
def stW9 : FTLState :=
  ((writeFTL envId cfg9 stInit9 0 0 [true, false]).getD (emptyState, 0)).1

/-- A one-page block, fully invalid, with erase count `e`. -/
def blkC4 (idx e : Nat) : Block := { Block.mkInit idx 1 1 e with blockIndex := idx }

/-- A hand-built state with block 3 in use (no valid pages) and one free
block of erase count 5. -/
def stC4 : FTLState :=
  { emptyState with
      blocks := [(3, blkC4 3 0)]
      freeBlocks := [blkC4 1 5]
      nFreeBlocks := 1 }

/-- `stC4` with an empty free list. -/
def stC4e : FTLState := { stC4 with freeBlocks := [], nFreeBlocks := 0 }

/-- `cfgA` with a bad-block threshold keeping every block alive. -/
def cfgC4 : Config := { cfgA with badBlockThreshold := 100 }

/-! ## Supporting lemmas -/

theorem length_updateKey (k : Nat) (v : α) :
    ∀ l : List (Nat × α), (updateKey k v l).length = l.length := by
  intro l
  induction l with
  | nil => rfl
  | cons hd tl ih =>
      simp only [updateKey]
      split <;> simp [ih]

theorem keys_updateKey (k : Nat) (v : α) :
    ∀ l : List (Nat × α), (updateKey k v l).map Prod.fst = l.map Prod.fst := by
  intro l
  induction l with
  | nil => rfl
  | cons hd tl ih =>
      simp only [updateKey]
      split <;> simp_all

theorem lookupKey_updateKey_ne (k k2 : Nat) (v : α) (hne : k2 ≠ k) :
    ∀ l : List (Nat × α), lookupKey k2 (updateKey k v l) = lookupKey k2 l := by
  intro l
  induction l with
  | nil => rfl
  | cons hd tl ih =>
      obtain ⟨a, b⟩ := hd
      simp only [updateKey]
      by_cases h1 : a = k
      · subst h1
        have h2 : ¬a = k2 := fun h => hne h.symm
        simp [lookupKey, h2]
      · simp only [if_neg h1, lookupKey]
        by_cases h2 : a = k2 <;> simp [h2, ih]

theorem lookupKey_isSome_updateKey (k k2 : Nat) (v : α) :
    ∀ l : List (Nat × α),
      (lookupKey k2 (updateKey k v l)).isSome = (lookupKey k2 l).isSome := by
  intro l
  induction l with
  | nil => rfl
  | cons hd tl ih =>
      obtain ⟨a, b⟩ := hd
      simp only [updateKey]
      by_cases h1 : a = k
      · simp only [if_pos h1, lookupKey]
        by_cases h2 : a = k2 <;> simp [h2, ih]
      · simp only [if_neg h1, lookupKey]
        by_cases h2 : a = k2 <;> simp [h2, ih]

theorem length_eraseKey_of_lookup (k : Nat) :
    ∀ (l : List (Nat × α)) (v : α), lookupKey k l = some v →
      (eraseKey k l).length + 1 = l.length := by
  intro l
  induction l with
  | nil => intro v h; simp [lookupKey] at h
  | cons hd tl ih =>
      intro v h
      simp only [lookupKey] at h
      simp only [eraseKey]
      by_cases h1 : hd.1 = k
      · simp [h1]
      · simp only [if_neg h1] at h ⊢
        simp [ih _ h]

theorem lookupKey_mem (k : Nat) :
    ∀ (l : List (Nat × α)) (v : α), lookupKey k l = some v → (k, v) ∈ l := by
  intro l
  induction l with
  | nil => intro v h; simp [lookupKey] at h
  | cons hd tl ih =>
      intro v h
      simp only [lookupKey] at h
      by_cases h1 : hd.1 = k
      · simp only [h1, if_true, Option.some.injEq] at h
        subst h
        cases hd with
        | mk a b =>
            simp only at h1
            subst h1
            exact List.mem_cons_self _ _
      · simp only [if_neg h1] at h
        exact List.mem_cons_of_mem _ (ih _ h)

/-! ### Sorted insertion at the reverse-scan position -/

/-- Ordering of blocks by erase count (the free-list order). -/
def ecLE (a b : Block) : Prop := a.eraseCount ≤ b.eraseCount

theorem backScanPos_le (e : Nat) : ∀ rl : List Block, backScanPos e rl ≤ rl.length := by
  intro rl
  induction rl with
  | nil => simp [backScanPos]
  | cons b rest ih =>
      simp only [backScanPos, List.length_cons]
      split
      · omega
      · omega

theorem length_insertAt (l : List α) (p : Nat) (a : α) :
    (insertAt l p a).length = l.length + 1 := by
  simp only [insertAt, List.length_append, List.length_cons, List.length_take,
    List.length_drop]
  omega

theorem mem_insertAt (l : List α) (p : Nat) (a x : α) :
    x ∈ insertAt l p a ↔ x ∈ l ∨ x = a := by
  simp only [insertAt, List.mem_append, List.mem_cons]
  constructor
  · rintro (h | h | h)
    · exact Or.inl (List.mem_of_mem_take h)
    · exact Or.inr h
    · exact Or.inl (List.mem_of_mem_drop h)
  · rintro (h | h)
    · have h2 : x ∈ l.take p ++ l.drop p := by rw [List.take_append_drop]; exact h
      rcases List.mem_append.mp h2 with h3 | h3
      · exact Or.inl h3
      · exact Or.inr (Or.inr h3)
    · exact Or.inr (Or.inl h)

theorem insertAt_append_singleton (l : List α) (x a : α) (p : Nat)
    (hp : p ≤ l.length) : insertAt (l ++ [x]) p a = insertAt l p a ++ [x] := by
  simp [insertAt, List.take_append_of_le_length hp, List.drop_append_of_le_length hp]

theorem insertAt_length_self (l : List α) (a : α) :
    insertAt l l.length a = l ++ [a] := by
  simp [insertAt]

/-- Reinsertion at the reverse-scan position keeps the free list sorted
by ascending erase count. -/
theorem pairwise_backScan_insert (b : Block) :
    ∀ l : List Block, List.Pairwise ecLE l →
      List.Pairwise ecLE (insertAt l (backScanPos b.eraseCount l.reverse) b) := by
  intro l
  induction l using List.reverseRecOn with
  | nil => intro _; simp [insertAt, backScanPos]
  | append_singleton init x ih =>
      intro h
      rw [List.reverse_append, List.reverse_singleton, List.singleton_append]
      simp only [backScanPos]
      rcases List.pairwise_append.mp h with ⟨hinit, -, hcross⟩
      by_cases hx : x.eraseCount ≤ b.eraseCount
      · rw [if_pos hx]
        have hlen : init.reverse.length + 1 = (init ++ [x]).length := by simp
        rw [hlen, insertAt_length_self]
        refine List.pairwise_append.mpr ⟨h, List.pairwise_singleton _ _, ?_⟩
        intro a ha c hc
        rcases List.mem_append.mp ha with h2 | h2
        · have h3 : ecLE a x := hcross a h2 x (List.mem_singleton_self x)
          have : c = b := List.mem_singleton.mp hc
          subst this
          exact Nat.le_trans h3 hx
        · have : a = x := List.mem_singleton.mp h2
          subst this
          have : c = b := List.mem_singleton.mp hc
          subst this
          exact hx
      · rw [if_neg hx]
        have hple : backScanPos b.eraseCount init.reverse ≤ init.length := by
          have := backScanPos_le b.eraseCount init.reverse
          simpa using this
        rw [insertAt_append_singleton _ _ _ _ hple]
        refine List.pairwise_append.mpr ⟨ih hinit, List.pairwise_singleton _ _, ?_⟩
        intro a ha c hc
        have hcx : c = x := List.mem_singleton.mp hc
        rcases (mem_insertAt _ _ _ _).mp ha with h2 | h2
        · rw [hcx]; exact hcross a h2 x (List.mem_singleton_self x)
        · rw [hcx, h2]; exact Nat.le_of_not_le hx

/-! ### The preserved quantities

`poolSum` is the block accounting (free counter + in-use map + retired
ghost counter), `freeSorted` the wear-ordering of the free list,
`freeSync` the agreement of the free counter with the free list.
`SubInv s s2` says an internal step from `s` to `s2` preserves all of
them and does not touch the refresh call count. -/

def poolSum (s : FTLState) : Nat := s.nFreeBlocks + s.blocks.length + s.retiredBlocks

def freeSorted (s : FTLState) : Prop := List.Pairwise ecLE s.freeBlocks

def freeSync (s : FTLState) : Prop := s.nFreeBlocks = s.freeBlocks.length

structure SubInv (s s2 : FTLState) : Prop where
  pool : poolSum s2 = poolSum s
  sorted : freeSorted s → freeSorted s2
  sync : freeSync s → freeSync s2
  rcc : s2.refreshCallCount = s.refreshCallCount

theorem SubInv.refl (s : FTLState) : SubInv s s := ⟨rfl, id, id, rfl⟩

theorem SubInv.comp {s1 s2 s3 : FTLState} (h1 : SubInv s1 s2) (h2 : SubInv s2 s3) :
    SubInv s1 s3 :=
  ⟨h2.pool.trans h1.pool, fun h => h2.sorted (h1.sorted h),
   fun h => h2.sync (h1.sync h), h2.rcc.trans h1.rcc⟩

theorem SubInv.of_eq {s s2 : FTLState}
    (hf : s2.freeBlocks = s.freeBlocks) (hn : s2.nFreeBlocks = s.nFreeBlocks)
    (hb : s2.blocks.length = s.blocks.length) (hr : s2.retiredBlocks = s.retiredBlocks)
    (hc : s2.refreshCallCount = s.refreshCallCount) : SubInv s s2 := by
  constructor
  · simp [poolSum, hn, hb, hr]
  · intro h; simpa [freeSorted, hf] using h
  · intro h; simp [freeSync, hn, hf]; exact h
  · exact hc

theorem subInv_palRead (env : Env) (s : FTLState) (r : PALReq) (t : Nat) :
    SubInv s (palRead env s r t).1 :=
  SubInv.of_eq rfl rfl rfl rfl rfl

theorem subInv_palWrite (env : Env) (s : FTLState) (r : PALReq) (t : Nat) :
    SubInv s (palWrite env s r t).1 :=
  SubInv.of_eq rfl rfl rfl rfl rfl

theorem subInv_palErase (env : Env) (s : FTLState) (r : PALReq) (t : Nat) :
    SubInv s (palErase env s r t).1 :=
  SubInv.of_eq rfl rfl rfl rfl rfl

theorem lookupKey_updateKey_self (k : Nat) (v : α) :
    ∀ (l : List (Nat × α)) (w : α), lookupKey k l = some w →
      lookupKey k (updateKey k v l) = some v := by
  intro l
  induction l with
  | nil => intro w h; simp [lookupKey] at h
  | cons hd tl ih =>
      intro w h
      obtain ⟨a, b⟩ := hd
      simp only [lookupKey, updateKey] at h ⊢
      by_cases h1 : a = k
      · simp [h1, lookupKey]
      · simp only [if_neg h1] at h ⊢
        simp only [lookupKey, if_neg h1]
        exact ih _ h

theorem subInv_setRefreshPeriod (s : FTLState) (blockId layer rtc : Nat) :
    SubInv s (setRefreshPeriod s blockId layer rtc) := by
  refine SubInv.of_eq ?_ ?_ ?_ ?_ ?_ <;>
  · simp only [setRefreshPeriod]
    split
    · rfl
    · split <;> rfl

theorem subInv_refreshRegLoop (env : Env) (cfg : Config) (blockId eraseCnt layer : Nat) :
    ∀ (fuel : Nat) (s : FTLState),
      SubInv s (refreshRegLoop env cfg blockId eraseCnt layer fuel s) := by
  intro fuel
  induction fuel with
  | zero => intro s; exact SubInv.refl s
  | succ i ih =>
      intro s
      simp only [refreshRegLoop]
      refine SubInv.comp ?_ (ih _)
      split
      · exact subInv_setRefreshPeriod s blockId layer i
      · split
        · exact subInv_setRefreshPeriod s blockId layer i
        · exact SubInv.refl s

theorem subInv_getFreeBlock {cfg : Config} {s : FTLState} {tick idx bid : Nat}
    {s2 : FTLState} (h : getFreeBlock cfg s tick idx = some (bid, s2)) : SubInv s s2 := by
  unfold getFreeBlock at h
  split at h
  · exact absurd h (by simp)
  · split at h
    next hn =>
      split at h
      next b hfind =>
        split at h
        · exact absurd h (by simp)
        · simp only [Option.some.injEq, Prod.mk.injEq] at h
          obtain ⟨-, h⟩ := h
          subst h
          have hmem := List.mem_of_find?_eq_some hfind
          have hpred := List.find?_some hfind
          have hlen := List.length_eraseP_of_mem
            (p := fun bb => decide (bb.blockIndex % cfg.pageCountToMaxPerf = idx))
            hmem hpred
          constructor
          · simp only [poolSum, List.length_cons]
            omega
          · intro hs
            exact List.Pairwise.sublist (List.eraseP_sublist _) hs
          · intro hs
            simp only [freeSync] at hs ⊢
            simp only [hlen]
            omega
          · rfl
      next hfind =>
        split at h
        · exact absurd h (by simp)
        next b rest hfb =>
          split at h
          · exact absurd h (by simp)
          · simp only [Option.some.injEq, Prod.mk.injEq] at h
            obtain ⟨-, h⟩ := h
            subst h
            constructor
            · simp only [poolSum, List.length_cons]
              omega
            · intro hs
              simp only [freeSorted, hfb] at hs ⊢
              exact hs.sublist (List.sublist_cons_self b rest)
            · intro hs
              simp only [freeSync, hfb, List.length_cons] at hs ⊢
              omega
            · rfl
    next hn => exact absurd h (by simp)

theorem subInv_rotateTarget (cfg : Config) (s : FTLState) (iomap : List Bool) :
    SubInv s (rotateTarget cfg s iomap) := by
  refine SubInv.of_eq ?_ ?_ ?_ ?_ ?_ <;>
  · simp only [rotateTarget]
    split <;> rfl

theorem subInv_getLastFreeBlock {cfg : Config} {s : FTLState} {tick : Nat}
    {iomap : List Bool} {bid : Nat} {s2 : FTLState}
    (h : getLastFreeBlock cfg s tick iomap = some (bid, s2)) : SubInv s s2 := by
  simp only [getLastFreeBlock] at h
  refine SubInv.comp (subInv_rotateTarget cfg s iomap) ?_
  split at h
  · exact absurd h (by simp)
  · split at h
    · exact absurd h (by simp)
    · split at h
      · split at h
        · exact absurd h (by simp)
        next nb s3 hget =>
          simp only [Option.some.injEq, Prod.mk.injEq] at h
          obtain ⟨-, h⟩ := h
          subst h
          exact SubInv.comp (subInv_getFreeBlock hget) (SubInv.of_eq rfl rfl rfl rfl rfl)
      · simp only [Option.some.injEq, Prod.mk.injEq] at h
        obtain ⟨-, h⟩ := h
        subst h
        exact SubInv.refl _

theorem subInv_eraseInternal {env : Env} {cfg : Config} {s : FTLState} {tick : Nat}
    {req : PALReq} {s2 : FTLState} {t2 : Nat}
    (h : eraseInternal env cfg s tick req = some (s2, t2)) : SubInv s s2 := by
  simp only [eraseInternal, palErase] at h
  split at h
  · exact absurd h (by simp)
  next blk hblk =>
    split at h
    · exact absurd h (by simp)
    next hvalid =>
      have hup : lookupKey req.blockIndex
          (updateKey req.blockIndex blk.eraseBlock s.blocks) = some blk.eraseBlock :=
        lookupKey_updateKey_self _ _ _ _ hblk
      have hlen2 := length_eraseKey_of_lookup _ _ _ hup
      have hlen3 := length_updateKey req.blockIndex blk.eraseBlock s.blocks
      split at h
      · split at h
        · exact absurd h (by simp)
        next fl hfl =>
          simp only [Option.some.injEq, Prod.mk.injEq] at h
          obtain ⟨h, -⟩ := h
          subst h
          rcases hfb : s.freeBlocks with _ | ⟨b0, rest⟩
          · rw [hfb] at hfl
            simp [freeListReinsert] at hfl
          · rw [hfb] at hfl
            simp only [freeListReinsert, Option.some.injEq] at hfl
            have hfl2 : fl = insertAt s.freeBlocks
                (backScanPos blk.eraseBlock.eraseCount s.freeBlocks.reverse)
                blk.eraseBlock := by
              rw [hfb]
              exact hfl.symm
            constructor
            · simp only [poolSum]
              omega
            · intro hs
              simp only [freeSorted] at hs ⊢
              rw [hfl2]
              exact pairwise_backScan_insert _ _ hs
            · intro hs
              simp only [freeSync] at hs ⊢
              rw [hfl2, length_insertAt]
              omega
            · rfl
      · simp only [Option.some.injEq, Prod.mk.injEq] at h
        obtain ⟨h, -⟩ := h
        subst h
        constructor
        · simp only [poolSum]
          omega
        · intro hs; exact hs
        · intro hs; exact hs
        · rfl

theorem subInv_updateBlocks (s : FTLState) (k : Nat) (b : Block) :
    SubInv s { s with blocks := updateKey k b s.blocks } :=
  SubInv.of_eq rfl rfl (length_updateKey k b s.blocks) rfl rfl

theorem subInv_trimIdxLoop : ∀ (idxs : List Nat) (s : FTLState) (ml : List (Nat × Nat))
    (s2 : FTLState), trimIdxLoop s ml idxs = some s2 → SubInv s s2 := by
  intro idxs
  induction idxs with
  | nil =>
      intro s ml s2 h
      simp only [trimIdxLoop, Option.some.injEq] at h
      subst h
      exact SubInv.refl s
  | cons idx rest ih =>
      intro s ml s2 h
      simp only [trimIdxLoop] at h
      split at h
      · exact absurd h (by simp)
      · split at h
        · exact absurd h (by simp)
        · exact SubInv.comp (subInv_updateBlocks s _ _) (ih _ _ _ h)

theorem subInv_trimInternal {env : Env} {cfg : Config} {s : FTLState} {tick lpn : Nat}
    {ioFlag : List Bool} {s2 : FTLState} {t2 : Nat}
    (h : trimInternal env cfg s tick lpn ioFlag = some (s2, t2)) : SubInv s s2 := by
  simp only [trimInternal] at h
  split at h
  · simp only [Option.some.injEq, Prod.mk.injEq] at h
    obtain ⟨h, -⟩ := h
    subst h
    exact SubInv.refl s
  · split at h
    · exact absurd h (by simp)
    next s1 hloop =>
      simp only [Option.some.injEq, Prod.mk.injEq] at h
      obtain ⟨h, -⟩ := h
      subst h
      exact SubInv.comp (subInv_trimIdxLoop _ _ _ _ hloop) (SubInv.of_eq rfl rfl rfl rfl rfl)

theorem subInv_trimFTL {env : Env} {cfg : Config} {s : FTLState} {tick lpn : Nat}
    {ioFlag : List Bool} {s2 : FTLState} {t2 : Nat}
    (h : trimFTL env cfg s tick lpn ioFlag = some (s2, t2)) : SubInv s s2 := by
  simp only [trimFTL] at h
  split at h
  · exact absurd h (by simp)
  next s1 t1 htrim =>
    simp only [Option.some.injEq, Prod.mk.injEq] at h
    obtain ⟨h, -⟩ := h
    subst h
    exact subInv_trimInternal htrim

theorem subInv_readIdxLoop : ∀ (idxs : List Nat) (env : Env) (cfg : Config)
    (s : FTLState) (ml : List (Nat × Nat)) (ioFlag : List Bool) (tick fin : Nat)
    (s2 : FTLState) (fin2 : Nat),
    readIdxLoop env cfg s ml ioFlag tick fin idxs = some (s2, fin2) → SubInv s s2 := by
  intro idxs
  induction idxs with
  | nil =>
      intro env cfg s ml ioFlag tick fin s2 fin2 h
      simp only [readIdxLoop, Option.some.injEq, Prod.mk.injEq] at h
      obtain ⟨h, -⟩ := h
      subst h
      exact SubInv.refl s
  | cons idx rest ih =>
      intro env cfg s ml ioFlag tick fin s2 fin2 h
      simp only [readIdxLoop] at h
      split at h
      · split at h
        · exact absurd h (by simp)
        · split at h
          · split at h
            · exact absurd h (by simp)
            · exact SubInv.comp (subInv_updateBlocks s _ _)
                (SubInv.comp (subInv_palRead _ _ _ _) (ih _ _ _ _ _ _ _ _ _ h))
          · exact ih _ _ _ _ _ _ _ _ _ h
      · exact ih _ _ _ _ _ _ _ _ _ h

theorem subInv_readInternal {env : Env} {cfg : Config} {s : FTLState} {tick lpn : Nat}
    {ioFlag : List Bool} {s2 : FTLState} {t2 : Nat}
    (h : readInternal env cfg s tick lpn ioFlag = some (s2, t2)) : SubInv s s2 := by
  simp only [readInternal] at h
  split at h
  · simp only [Option.some.injEq, Prod.mk.injEq] at h
    obtain ⟨h, -⟩ := h
    subst h
    exact SubInv.refl s
  · split at h
    · exact absurd h (by simp)
    next p hloop =>
      simp only [Option.some.injEq, Prod.mk.injEq] at h
      obtain ⟨h, -⟩ := h
      subst h
      exact subInv_readIdxLoop _ _ _ _ _ _ _ _ _ _ hloop

theorem subInv_readFTL {env : Env} {cfg : Config} {s : FTLState} {tick lpn : Nat}
    {ioFlag : List Bool} {s2 : FTLState} {t2 : Nat}
    (h : readFTL env cfg s tick lpn ioFlag = some (s2, t2)) : SubInv s s2 := by
  simp only [readFTL] at h
  split at h
  · split at h
    · exact absurd h (by simp)
    next s1 t1 hint =>
      simp only [Option.some.injEq, Prod.mk.injEq] at h
      obtain ⟨h, -⟩ := h
      subst h
      exact subInv_readInternal hint
  · simp only [Option.some.injEq, Prod.mk.injEq] at h
    obtain ⟨h, -⟩ := h
    subst h
    exact SubInv.refl s

theorem subInv_itePalRead (c : Bool) (env : Env) (s : FTLState) (r : PALReq) (t : Nat) :
    SubInv s (if c then palRead env s r t else (s, t)).1 := by
  cases c
  · exact SubInv.refl s
  · exact subInv_palRead env s r t

theorem subInv_itePalWrite (c : Bool) (env : Env) (s : FTLState) (r : PALReq) (t : Nat) :
    SubInv s (if c then palWrite env s r t else (s, t)).1 := by
  cases c
  · exact SubInv.refl s
  · exact subInv_palWrite env s r t

theorem subInv_iteRegLoop (c : Bool) (env : Env) (cfg : Config)
    (blockId eraseCnt layer n : Nat) (s : FTLState) :
    SubInv s (if c then refreshRegLoop env cfg blockId eraseCnt layer n s else s) := by
  cases c
  · exact SubInv.refl s
  · exact subInv_refreshRegLoop env cfg blockId eraseCnt layer n s

theorem subInv_tableUpdateOf {s : FTLState} (s0 : FTLState)
    (tb : List (Nat × List (Nat × Nat))) (h : SubInv s s0) :
    SubInv s { s0 with table := tb } :=
  SubInv.comp h (SubInv.of_eq rfl rfl rfl rfl rfl)

theorem subInv_blocksUpdateOf {s : FTLState} (s0 : FTLState) (k : Nat) (b : Block)
    (h : SubInv s s0) : SubInv s { s0 with blocks := updateKey k b s0.blocks } :=
  SubInv.comp h (SubInv.of_eq rfl rfl (length_updateKey k b s0.blocks) rfl rfl)

theorem subInv_writeIdxLoop : ∀ (idxs : List Nat) (env : Env) (cfg : Config)
    (sp rbw : Bool) (lpn : Nat) (ioFlag : List Bool) (blockId tick : Nat)
    (s : FTLState) (fin : Nat) (s2 : FTLState) (fin2 : Nat),
    writeIdxLoop env cfg sp rbw lpn ioFlag blockId tick s fin idxs = some (s2, fin2) →
    SubInv s s2 := by
  intro idxs
  induction idxs with
  | nil =>
      intro env cfg sp rbw lpn ioFlag blockId tick s fin s2 fin2 h
      simp only [writeIdxLoop, Option.some.injEq, Prod.mk.injEq] at h
      obtain ⟨h, -⟩ := h
      subst h
      exact SubInv.refl s
  | cons idx rest ih =>
      intro env cfg sp rbw lpn ioFlag blockId tick s fin s2 fin2 h
      simp only [writeIdxLoop] at h
      split at h
      · split at h
        · exact absurd h (by simp)
        · split at h
          · exact absurd h (by simp)
          · split at h
            · exact absurd h (by simp)
            · refine SubInv.comp ?_ (ih _ _ _ _ _ _ _ _ _ _ _ _ h)
              refine SubInv.comp ?_ (subInv_iteRegLoop _ env cfg _ _ _ _ _)
              refine SubInv.comp ?_ (subInv_itePalWrite _ env _ _ _)
              refine subInv_tableUpdateOf _ _ ?_
              refine SubInv.comp ?_ (subInv_itePalRead _ env _ _ _)
              exact subInv_updateBlocks s _ _
      · exact ih _ _ _ _ _ _ _ _ _ _ _ _ h

theorem subInv_invalidateOldLoop : ∀ (idxs : List Nat) (cfg : Config) (s : FTLState)
    (ml : List (Nat × Nat)) (ioFlag : List Bool) (s2 : FTLState),
    invalidateOldLoop cfg s ml ioFlag idxs = some s2 → SubInv s s2 := by
  intro idxs
  induction idxs with
  | nil =>
      intro cfg s ml ioFlag s2 h
      simp only [invalidateOldLoop, Option.some.injEq] at h
      subst h
      exact SubInv.refl s
  | cons idx rest ih =>
      intro cfg s ml ioFlag s2 h
      simp only [invalidateOldLoop] at h
      split at h
      · split at h
        · exact absurd h (by simp)
        · split at h
          · split at h
            · exact absurd h (by simp)
            · exact SubInv.comp (subInv_updateBlocks s _ _) (ih _ _ _ _ _ h)
          · exact ih _ _ _ _ _ h
      · exact ih _ _ _ _ _ h

theorem subInv_selectVictim (env : Env) (cfg : Config) (s : FTLState) (tick : Nat) :
    SubInv s (selectVictimBlock env cfg s tick).2.1 := by
  simp only [selectVictimBlock]
  split
  · exact SubInv.of_eq rfl rfl rfl rfl rfl
  · exact SubInv.refl s

theorem subInv_gcCollectIdxLoop : ∀ (idxs : List Nat) (env : Env) (cfg : Config)
    (s : FTLState) (tick srcBlockId pageIndex freeBlockId : Nat) (lpns : List Nat)
    (bit : List Bool) (ws : List PALReq) (s2 : FTLState) (t2 : Nat) (ws2 : List PALReq),
    gcCollectIdxLoop env cfg s tick srcBlockId pageIndex freeBlockId lpns bit ws idxs =
      some (s2, t2, ws2) → SubInv s s2 := by
  intro idxs
  induction idxs with
  | nil =>
      intro env cfg s tick a b c lpns bit ws s2 t2 ws2 h
      simp only [gcCollectIdxLoop, Option.some.injEq, Prod.mk.injEq] at h
      obtain ⟨h, -⟩ := h
      subst h
      exact SubInv.refl s
  | cons idx rest ih =>
      intro env cfg s tick a b c lpns bit ws s2 t2 ws2 h
      simp only [gcCollectIdxLoop] at h
      split at h
      · split at h
        · exact absurd h (by simp)
        · split at h
          · exact absurd h (by simp)
          · split at h
            · exact absurd h (by simp)
            · split at h
              · exact absurd h (by simp)
              · split at h
                · exact absurd h (by simp)
                · refine SubInv.comp ?_ (ih _ _ _ _ _ _ _ _ _ _ _ _ _ h)
                  refine SubInv.of_eq rfl rfl ?_ rfl rfl
                  simp [length_updateKey]
      · exact ih _ _ _ _ _ _ _ _ _ _ _ _ _ h

theorem subInv_gcCollectPageLoop : ∀ (pages : List Nat) (env : Env) (cfg : Config)
    (s : FTLState) (tick srcBlockId : Nat) (rs ws : List PALReq) (s2 : FTLState)
    (t2 : Nat) (rs2 ws2 : List PALReq),
    gcCollectPageLoop env cfg s tick srcBlockId rs ws pages = some (s2, t2, rs2, ws2) →
    SubInv s s2 := by
  intro pages
  induction pages with
  | nil =>
      intro env cfg s tick srcBlockId rs ws s2 t2 rs2 ws2 h
      simp only [gcCollectPageLoop, Option.some.injEq, Prod.mk.injEq] at h
      obtain ⟨h, -⟩ := h
      subst h
      exact SubInv.refl s
  | cons pageIndex rest ih =>
      intro env cfg s tick srcBlockId rs ws s2 t2 rs2 ws2 h
      simp only [gcCollectPageLoop] at h
      split at h
      · exact absurd h (by simp)
      · split at h
        · split at h
          · exact absurd h (by simp)
          next p hget =>
            split at h
            · exact absurd h (by simp)
            next q hloop =>
              exact SubInv.comp (subInv_getLastFreeBlock hget)
                (SubInv.comp (subInv_gcCollectIdxLoop _ _ _ _ _ _ _ _ _ _ _ _ _ _ hloop)
                  (ih _ _ _ _ _ _ _ _ _ _ _ h))
        · exact ih _ _ _ _ _ _ _ _ _ _ _ h

theorem subInv_gcCollectBlockLoop : ∀ (bids : List Nat) (env : Env) (cfg : Config)
    (s : FTLState) (tick : Nat) (rs ws es : List PALReq) (s2 : FTLState) (t2 : Nat)
    (reqs : GCReqs),
    gcCollectBlockLoop env cfg s tick rs ws es bids = some (s2, t2, reqs) →
    SubInv s s2 := by
  intro bids
  induction bids with
  | nil =>
      intro env cfg s tick rs ws es s2 t2 reqs h
      simp only [gcCollectBlockLoop, Option.some.injEq, Prod.mk.injEq] at h
      obtain ⟨h, -⟩ := h
      subst h
      exact SubInv.refl s
  | cons bid rest ih =>
      intro env cfg s tick rs ws es s2 t2 reqs h
      simp only [gcCollectBlockLoop] at h
      split at h
      · exact absurd h (by simp)
      · split at h
        · exact absurd h (by simp)
        next p hloop =>
          exact SubInv.comp (subInv_gcCollectPageLoop _ _ _ _ _ _ _ _ _ _ _ _ hloop)
            (ih _ _ _ _ _ _ _ _ _ _ h)

theorem subInv_gcReadPhase : ∀ (rs : List PALReq) (env : Env) (tick : Nat)
    (s : FTLState) (rf : Nat), SubInv s (gcReadPhase env tick rs s rf).1 := by
  intro rs
  induction rs with
  | nil => intro env tick s rf; exact SubInv.refl s
  | cons r rest ih =>
      intro env tick s rf
      simp only [gcReadPhase]
      exact SubInv.comp (subInv_palRead env s r tick) (ih _ _ _ _)

theorem subInv_gcWritePhase : ∀ (ws : List PALReq) (env : Env) (rf : Nat)
    (s : FTLState) (wf : Nat), SubInv s (gcWritePhase env rf ws s wf).1 := by
  intro ws
  induction ws with
  | nil => intro env rf s wf; exact SubInv.refl s
  | cons r rest ih =>
      intro env rf s wf
      simp only [gcWritePhase]
      exact SubInv.comp (subInv_palWrite env s r rf) (ih _ _ _ _)

theorem subInv_gcErasePhase : ∀ (es : List PALReq) (env : Env) (cfg : Config)
    (rf : Nat) (s : FTLState) (ef : Nat) (s2 : FTLState) (ef2 : Nat),
    gcErasePhase env cfg rf es s ef = some (s2, ef2) → SubInv s s2 := by
  intro es
  induction es with
  | nil =>
      intro env cfg rf s ef s2 ef2 h
      simp only [gcErasePhase, Option.some.injEq, Prod.mk.injEq] at h
      obtain ⟨h, -⟩ := h
      subst h
      exact SubInv.refl s
  | cons r rest ih =>
      intro env cfg rf s ef s2 ef2 h
      simp only [gcErasePhase] at h
      split at h
      · exact absurd h (by simp)
      next p herase =>
        exact SubInv.comp (subInv_eraseInternal herase) (ih _ _ _ _ _ _ _ h)

theorem subInv_doGarbageCollection {env : Env} {cfg : Config} {s : FTLState}
    {tick : Nat} {list : List Nat} {s2 : FTLState} {t2 : Nat}
    (h : doGarbageCollection env cfg s tick list = some (s2, t2)) : SubInv s s2 := by
  simp only [doGarbageCollection] at h
  split at h
  · simp only [Option.some.injEq, Prod.mk.injEq] at h
    obtain ⟨h, -⟩ := h
    subst h
    exact SubInv.refl s
  · split at h
    · exact absurd h (by simp)
    next p hcollect =>
      split at h
      · exact absurd h (by simp)
      next q herase =>
        simp only [Option.some.injEq, Prod.mk.injEq] at h
        obtain ⟨h, -⟩ := h
        subst h
        exact SubInv.comp (subInv_gcCollectBlockLoop _ _ _ _ _ _ _ _ _ _ _ hcollect)
          (SubInv.comp (subInv_gcReadPhase _ _ _ _ _)
            (SubInv.comp (subInv_gcWritePhase _ _ _ _ _)
              (subInv_gcErasePhase _ _ _ _ _ _ _ _ herase)))

theorem subInv_writeGCTail {env : Env} {cfg : Config} {sp : Bool} {s : FTLState}
    {tick : Nat} {s2 : FTLState} {t2 : Nat}
    (h : writeGCTail env cfg sp s tick = some (s2, t2)) : SubInv s s2 := by
  simp only [writeGCTail] at h
  split at h
  · split at h
    · exact absurd h (by simp)
    · split at h
      · exact absurd h (by simp)
      next p hgc =>
        simp only [Option.some.injEq, Prod.mk.injEq] at h
        obtain ⟨h, -⟩ := h
        subst h
        exact SubInv.comp (subInv_selectVictim env cfg s tick) (subInv_doGarbageCollection hgc)
  · simp only [Option.some.injEq, Prod.mk.injEq] at h
    obtain ⟨h, -⟩ := h
    subst h
    exact SubInv.refl s

theorem subInv_writeInternal {env : Env} {cfg : Config} {s : FTLState} {tick lpn : Nat}
    {ioFlag : List Bool} {sp : Bool} {s2 : FTLState} {t2 : Nat}
    (h : writeInternal env cfg s tick lpn ioFlag sp = some (s2, t2)) : SubInv s s2 := by
  simp only [writeInternal] at h
  split at h
  · exact absurd h (by simp)
  next s1 hmapped =>
    split at h
    · exact absurd h (by simp)
    next p hglfb =>
      split at h
      · exact absurd h (by simp)
      · split at h
        · exact absurd h (by simp)
        next q hloop =>
          have hs1 : SubInv s s1 := by
            revert hmapped
            split
            · intro hmapped
              exact subInv_invalidateOldLoop _ _ _ _ _ _ hmapped
            · intro hmapped
              simp only [Option.some.injEq] at hmapped
              subst hmapped
              exact SubInv.of_eq rfl rfl rfl rfl rfl
          exact SubInv.comp hs1
            (SubInv.comp (subInv_getLastFreeBlock hglfb)
              (SubInv.comp (subInv_writeIdxLoop _ _ _ _ _ _ _ _ _ _ _ _ _ hloop)
                (subInv_writeGCTail h)))

theorem subInv_writeFTL {env : Env} {cfg : Config} {s : FTLState} {tick lpn : Nat}
    {ioFlag : List Bool} {s2 : FTLState} {t2 : Nat}
    (h : writeFTL env cfg s tick lpn ioFlag = some (s2, t2)) : SubInv s s2 := by
  simp only [writeFTL] at h
  split at h
  · split at h
    · exact absurd h (by simp)
    next s1 t1 hint =>
      simp only [Option.some.injEq, Prod.mk.injEq] at h
      obtain ⟨h, -⟩ := h
      subst h
      exact subInv_writeInternal hint
  · simp only [Option.some.injEq, Prod.mk.injEq] at h
    obtain ⟨h, -⟩ := h
    subst h
    exact SubInv.refl s

theorem subInv_refreshIdxLoop : ∀ (idxs : List Nat) (env : Env) (cfg : Config)
    (s : FTLState) (tick t0 srcBlockId pageIndex freeBlockId : Nat) (lpns : List Nat)
    (bit : List Bool) (ws : List PALReq) (s2 : FTLState) (t2 : Nat) (ws2 : List PALReq),
    refreshIdxLoop env cfg s tick t0 srcBlockId pageIndex freeBlockId lpns bit ws idxs =
      some (s2, t2, ws2) → SubInv s s2 := by
  intro idxs
  induction idxs with
  | nil =>
      intro env cfg s tick t0 a b c lpns bit ws s2 t2 ws2 h
      simp only [refreshIdxLoop, Option.some.injEq, Prod.mk.injEq] at h
      obtain ⟨h, -⟩ := h
      subst h
      exact SubInv.refl s
  | cons idx rest ih =>
      intro env cfg s tick t0 a b c lpns bit ws s2 t2 ws2 h
      simp only [refreshIdxLoop] at h
      split at h
      · split at h
        · exact absurd h (by simp)
        · split at h
          · exact absurd h (by simp)
          · split at h
            · exact SubInv.comp (subInv_updateBlocks s _ _)
                (ih _ _ _ _ _ _ _ _ _ _ _ _ _ _ h)
            · split at h
              · exact absurd h (by simp)
              · split at h
                · exact absurd h (by simp)
                · refine SubInv.comp ?_ (ih _ _ _ _ _ _ _ _ _ _ _ _ _ _ h)
                  refine SubInv.of_eq rfl rfl ?_ rfl rfl
                  simp [length_updateKey]
      · exact ih _ _ _ _ _ _ _ _ _ _ _ _ _ _ h

theorem subInv_refreshPageLoop : ∀ (pages : List Nat) (env : Env) (cfg : Config)
    (s : FTLState) (tick t0 srcBlockId : Nat) (rs ws : List PALReq) (s2 : FTLState)
    (t2 : Nat) (rs2 ws2 : List PALReq),
    refreshPageLoop env cfg s tick t0 srcBlockId rs ws pages = some (s2, t2, rs2, ws2) →
    SubInv s s2 := by
  intro pages
  induction pages with
  | nil =>
      intro env cfg s tick t0 srcBlockId rs ws s2 t2 rs2 ws2 h
      simp only [refreshPageLoop, Option.some.injEq, Prod.mk.injEq] at h
      obtain ⟨h, -⟩ := h
      subst h
      exact SubInv.refl s
  | cons pageIndex rest ih =>
      intro env cfg s tick t0 srcBlockId rs ws s2 t2 rs2 ws2 h
      simp only [refreshPageLoop] at h
      split at h
      · exact absurd h (by simp)
      · split at h
        · split at h
          · exact absurd h (by simp)
          next p hget =>
            split at h
            · exact absurd h (by simp)
            next q hloop =>
              exact SubInv.comp (subInv_getLastFreeBlock hget)
                (SubInv.comp (subInv_refreshIdxLoop _ _ _ _ _ _ _ _ _ _ _ _ _ _ _ hloop)
                  (ih _ _ _ _ _ _ _ _ _ _ _ _ h))
        · exact ih _ _ _ _ _ _ _ _ _ _ _ _ h

theorem subInv_refreshPage {env : Env} {cfg : Config} {s : FTLState}
    {tick blockIndex layer : Nat} {s2 : FTLState} {t2 : Nat}
    (h : refreshPage env cfg s tick blockIndex layer = some (s2, t2)) : SubInv s s2 := by
  simp only [refreshPage] at h
  split at h
  · exact absurd h (by simp)
  next s0 hpre =>
    have hs0 : SubInv s s0 := by
      revert hpre
      split
      · split
        · intro hpre; exact absurd hpre (by simp)
        next p hgc =>
          intro hpre
          simp only [Option.some.injEq] at hpre
          subst hpre
          exact SubInv.comp (subInv_selectVictim env cfg s tick) (subInv_doGarbageCollection hgc)
      · intro hpre
        simp only [Option.some.injEq] at hpre
        subst hpre
        exact SubInv.refl s
    refine SubInv.comp hs0 ?_
    split at h
    · simp only [Option.some.injEq, Prod.mk.injEq] at h
      obtain ⟨h, -⟩ := h
      subst h
      exact SubInv.refl s0
    · split at h
      · exact absurd h (by simp)
      next p hloop =>
        simp only [Option.some.injEq, Prod.mk.injEq] at h
        obtain ⟨h, -⟩ := h
        subst h
        exact SubInv.comp (subInv_refreshPageLoop _ _ _ _ _ _ _ _ _ _ _ _ _ hloop)
          (SubInv.comp (subInv_gcReadPhase _ _ _ _ _) (subInv_gcWritePhase _ _ _ _ _))

theorem subInv_refreshSweepLayerLoop : ∀ (js : List Nat) (env : Env) (cfg : Config)
    (targetBF blockIdx : Nat) (s : FTLState) (tick : Nat) (s2 : FTLState) (t2 : Nat),
    refreshSweepLayerLoop env cfg targetBF blockIdx s tick js = some (s2, t2) →
    SubInv s s2 := by
  intro js
  induction js with
  | nil =>
      intro env cfg targetBF blockIdx s tick s2 t2 h
      simp only [refreshSweepLayerLoop, Option.some.injEq, Prod.mk.injEq] at h
      obtain ⟨h, -⟩ := h
      subst h
      exact SubInv.refl s
  | cons j rest ih =>
      intro env cfg targetBF blockIdx s tick s2 t2 h
      simp only [refreshSweepLayerLoop] at h
      split at h
      · split at h
        · exact absurd h (by simp)
        next p hpage =>
          exact SubInv.comp
            (by refine SubInv.of_eq ?_ ?_ ?_ ?_ ?_ <;> · split <;> rfl)
            (SubInv.comp (subInv_refreshPage hpage) (ih _ _ _ _ _ _ _ _ h))
      · refine SubInv.comp ?_ (ih _ _ _ _ _ _ _ _ h)
        exact SubInv.of_eq rfl rfl rfl rfl rfl

theorem subInv_refreshSweepBlockLoop : ∀ (is : List Nat) (env : Env) (cfg : Config)
    (targetBF : Nat) (s : FTLState) (tick : Nat) (s2 : FTLState) (t2 : Nat),
    refreshSweepBlockLoop env cfg targetBF s tick is = some (s2, t2) → SubInv s s2 := by
  intro is
  induction is with
  | nil =>
      intro env cfg targetBF s tick s2 t2 h
      simp only [refreshSweepBlockLoop, Option.some.injEq, Prod.mk.injEq] at h
      obtain ⟨h, -⟩ := h
      subst h
      exact SubInv.refl s
  | cons i rest ih =>
      intro env cfg targetBF s tick s2 t2 h
      simp only [refreshSweepBlockLoop] at h
      split at h
      · exact absurd h (by simp)
      next p hlayer =>
        exact SubInv.comp (subInv_refreshSweepLayerLoop _ _ _ _ _ _ _ _ _ hlayer)
          (ih _ _ _ _ _ _ _ h)

/-- `refresh_event` preserves the pool accounting, the free-list order
and the counter sync, and advances `refreshCallCount` by exactly one. -/
theorem refresh_event_shape {env : Env} {cfg : Config} {s : FTLState} {tick : Nat}
    {s2 : FTLState} {t2 : Nat} (h : refresh_event env cfg s tick = some (s2, t2)) :
    poolSum s2 = poolSum s ∧ (freeSorted s → freeSorted s2) ∧
      (freeSync s → freeSync s2) ∧ s2.refreshCallCount = s.refreshCallCount + 1 := by
  simp only [refresh_event] at h
  split at h
  · exact absurd h (by simp)
  next p hsweep =>
    simp only [Option.some.injEq, Prod.mk.injEq] at h
    obtain ⟨h, -⟩ := h
    subst h
    have hsub := subInv_refreshSweepBlockLoop _ _ _ _ _ _ _ _ hsweep
    refine ⟨?_, ?_, ?_, ?_⟩
    · exact hsub.pool
    · exact hsub.sorted
    · exact hsub.sync
    · simp [hsub.rcc]

theorem subInv_formatIdxLoop : ∀ (idxs : List Nat) (s : FTLState)
    (ml : List (Nat × Nat)) (acc : List Nat) (s2 : FTLState) (acc2 : List Nat),
    formatIdxLoop s ml acc idxs = some (s2, acc2) → SubInv s s2 := by
  intro idxs
  induction idxs with
  | nil =>
      intro s ml acc s2 acc2 h
      simp only [formatIdxLoop, Option.some.injEq, Prod.mk.injEq] at h
      obtain ⟨h, -⟩ := h
      subst h
      exact SubInv.refl s
  | cons idx rest ih =>
      intro s ml acc s2 acc2 h
      simp only [formatIdxLoop] at h
      split at h
      · exact absurd h (by simp)
      · split at h
        · exact absurd h (by simp)
        · exact SubInv.comp (subInv_updateBlocks s _ _) (ih _ _ _ _ _ h)

theorem subInv_formatEntryLoop : ∀ (entries : List (Nat × List (Nat × Nat)))
    (cfg : Config) (s : FTLState) (slpn nlp : Nat) (acc : List Nat) (s2 : FTLState)
    (acc2 : List Nat),
    formatEntryLoop cfg s slpn nlp acc entries = some (s2, acc2) → SubInv s s2 := by
  intro entries
  induction entries with
  | nil =>
      intro cfg s slpn nlp acc s2 acc2 h
      simp only [formatEntryLoop, Option.some.injEq, Prod.mk.injEq] at h
      obtain ⟨h, -⟩ := h
      subst h
      exact SubInv.refl s
  | cons e rest ih =>
      intro cfg s slpn nlp acc s2 acc2 h
      simp only [formatEntryLoop] at h
      split at h
      · split at h
        · exact absurd h (by simp)
        next p hloop =>
          refine SubInv.comp (subInv_formatIdxLoop _ _ _ _ _ _ hloop) ?_
          refine SubInv.comp ?_ (ih _ _ _ _ _ _ _ h)
          exact SubInv.of_eq rfl rfl rfl rfl rfl
      · exact ih _ _ _ _ _ _ _ h

theorem subInv_formatFTL {env : Env} {cfg : Config} {s : FTLState} {tick slpn nlp : Nat}
    {s2 : FTLState} {t2 : Nat}
    (h : formatFTL env cfg s tick slpn nlp = some (s2, t2)) : SubInv s s2 := by
  simp only [formatFTL] at h
  split at h
  · exact absurd h (by simp)
  next p hentry =>
    split at h
    · exact absurd h (by simp)
    next q hgc =>
      simp only [Option.some.injEq, Prod.mk.injEq] at h
      obtain ⟨h, -⟩ := h
      subst h
      exact SubInv.comp (subInv_formatEntryLoop _ _ _ _ _ _ _ _ hentry)
        (subInv_doGarbageCollection hgc)

/-! ### The invariant over reachable states -/

/-- The claimed state invariant, amended by the ghost count of retired
bad blocks: block accounting, free-list wear order, counter sync. -/
def Inv (cfg : Config) (s : FTLState) : Prop :=
  poolSum s = cfg.totalPhysicalBlocks ∧ freeSorted s ∧ freeSync s

theorem inv_of_subInv {cfg : Config} {s s2 : FTLState} (hs : SubInv s s2)
    (h : Inv cfg s) : Inv cfg s2 :=
  ⟨hs.pool.trans h.1, hs.sorted h.2.1, hs.sync h.2.2⟩

theorem pairwise_mkInit : ∀ (l : List Nat) (pages units c : Nat),
    List.Pairwise ecLE (l.map (fun i => Block.mkInit i pages units c)) := by
  intro l pages units c
  induction l with
  | nil => exact List.Pairwise.nil
  | cons x xs ih =>
      refine List.Pairwise.cons ?_ ih
      intro b hb
      simp only [List.mem_map] at hb
      obtain ⟨i, -, hbi⟩ := hb
      rw [← hbi]
      exact Nat.le_refl _

theorem subInv_allocLastFreeLoop : ∀ (is : List Nat) (cfg : Config) (s : FTLState)
    (acc : List Nat) (s2 : FTLState) (ids : List Nat),
    allocLastFreeLoop cfg s acc is = some (s2, ids) → SubInv s s2 := by
  intro is
  induction is with
  | nil =>
      intro cfg s acc s2 ids h
      simp only [allocLastFreeLoop, Option.some.injEq, Prod.mk.injEq] at h
      obtain ⟨h, -⟩ := h
      subst h
      exact SubInv.refl s
  | cons i rest ih =>
      intro cfg s acc s2 ids h
      simp only [allocLastFreeLoop] at h
      split at h
      · exact absurd h (by simp)
      next p hget =>
        exact SubInv.comp (subInv_getFreeBlock hget) (ih _ _ _ _ _ h)

theorem mkInitState_inv {cfg : Config} {s0 : FTLState}
    (h : mkInitState cfg = some s0) : Inv cfg s0 := by
  simp only [mkInitState] at h
  split at h
  · exact absurd h (by simp)
  next p halloc =>
    simp only [Option.some.injEq] at h
    subst h
    refine inv_of_subInv (SubInv.comp (subInv_allocLastFreeLoop _ _ _ _ _ _ halloc)
      (SubInv.of_eq rfl rfl rfl rfl rfl)) ?_
    refine ⟨?_, ?_, ?_⟩
    · simp [poolSum]
    · exact pairwise_mkInit _ _ _ _
    · simp [freeSync, initFreeBlocks]

theorem pubStep_inv {env : Env} {cfg : Config} {st st2 : FTLState × Nat}
    (h : PubStep env cfg st st2) (hinv : Inv cfg st.1) : Inv cfg st2.1 := by
  cases h with
  | read s t lpn ioFlag s2 t2 hop => exact inv_of_subInv (subInv_readFTL hop) hinv
  | write s t lpn ioFlag s2 t2 hop => exact inv_of_subInv (subInv_writeFTL hop) hinv
  | trim s t lpn ioFlag s2 t2 hop => exact inv_of_subInv (subInv_trimFTL hop) hinv
  | format s t slpn nlp s2 t2 hop => exact inv_of_subInv (subInv_formatFTL hop) hinv
  | refresh s t s2 t2 hop =>
      obtain ⟨h1, h2, h3, -⟩ := refresh_event_shape hop
      exact ⟨h1.trans hinv.1, h2 hinv.2.1, h3 hinv.2.2⟩

theorem reachable_inv {env : Env} {cfg : Config} {st : FTLState × Nat}
    (h : Reachable env cfg st) : Inv cfg st.1 := by
  induction h with
  | init s0 h0 => exact mkInitState_inv h0
  | step st st2 hr hstep ih => exact pubStep_inv hstep ih

/-! ## Claim-supporting lemmas -/

instance : IsTrans Block ecLE := ⟨fun _ _ _ h1 h2 => Nat.le_trans h1 h2⟩

theorem getFreeBlock_freeBlocks_sublist {cfg : Config} {s : FTLState}
    {tick idx bid : Nat} {s2 : FTLState}
    (h : getFreeBlock cfg s tick idx = some (bid, s2)) :
    s2.freeBlocks.Sublist s.freeBlocks := by
  unfold getFreeBlock at h
  split at h
  · exact absurd h (by simp)
  · split at h
    · split at h
      · split at h
        · exact absurd h (by simp)
        · simp only [Option.some.injEq, Prod.mk.injEq] at h
          obtain ⟨-, h⟩ := h
          subst h
          exact List.eraseP_sublist _
      · split at h
        · exact absurd h (by simp)
        next b rest hfb =>
          split at h
          · exact absurd h (by simp)
          · simp only [Option.some.injEq, Prod.mk.injEq] at h
            obtain ⟨-, h⟩ := h
            subst h
            rw [hfb]
            exact List.sublist_cons_self b rest
    · exact absurd h (by simp)

theorem freeListReinsert_pairwise {b : Block} {l fl : List Block}
    (hs : List.Pairwise ecLE l) (h : freeListReinsert b l = some fl) :
    List.Pairwise ecLE fl := by
  cases l with
  | nil => simp [freeListReinsert] at h
  | cons b0 rest =>
      simp only [freeListReinsert, Option.some.injEq] at h
      rw [← h]
      exact pairwise_backScan_insert b (b0 :: rest) hs

theorem lookupKey_none_of_not_mem (k : Nat) :
    ∀ l : List (Nat × α), k ∉ l.map Prod.fst → lookupKey k l = none := by
  intro l
  induction l with
  | nil => intro _; rfl
  | cons hd tl ih =>
      intro hmem
      obtain ⟨a, b⟩ := hd
      simp only [List.map_cons, List.mem_cons] at hmem
      push_neg at hmem
      simp only [lookupKey, if_neg (fun h : a = k => hmem.1 h.symm)]
      exact ih hmem.2

theorem lookupKey_eraseKey_self (k : Nat) :
    ∀ l : List (Nat × α), (l.map Prod.fst).Nodup →
      lookupKey k (eraseKey k l) = none := by
  intro l
  induction l with
  | nil => intro _; rfl
  | cons hd tl ih =>
      intro hnd
      obtain ⟨a, b⟩ := hd
      simp only [List.map_cons, List.nodup_cons] at hnd
      simp only [eraseKey]
      by_cases h1 : a = k
      · subst h1
        simp only [if_pos rfl]
        exact lookupKey_none_of_not_mem a tl hnd.1
      · simp only [if_neg h1, lookupKey, if_neg h1]
        exact ih hnd.2

theorem trimIdxLoop_table : ∀ (idxs : List Nat) (s : FTLState)
    (ml : List (Nat × Nat)) (s2 : FTLState),
    trimIdxLoop s ml idxs = some s2 → s2.table = s.table := by
  intro idxs
  induction idxs with
  | nil =>
      intro s ml s2 h
      simp only [trimIdxLoop, Option.some.injEq] at h
      subst h
      rfl
  | cons idx rest ih =>
      intro s ml s2 h
      simp only [trimIdxLoop] at h
      split at h
      · exact absurd h (by simp)
      · split at h
        · exact absurd h (by simp)
        · exact (ih _ _ _ h).trans rfl

theorem trimInternal_unmaps {env : Env} {cfg : Config} {s : FTLState}
    {tick lpn : Nat} {ioFlag : List Bool} {s1 : FTLState} {t1 : Nat}
    (hnodup : (s.table.map Prod.fst).Nodup)
    (h : trimInternal env cfg s tick lpn ioFlag = some (s1, t1)) :
    lookupKey lpn s1.table = none := by
  simp only [trimInternal] at h
  split at h
  next hl =>
    simp only [Option.some.injEq, Prod.mk.injEq] at h
    obtain ⟨h, -⟩ := h
    subst h
    exact hl
  next ml hl =>
    split at h
    · exact absurd h (by simp)
    next s3 hloop =>
      simp only [Option.some.injEq, Prod.mk.injEq] at h
      obtain ⟨h, -⟩ := h
      subst h
      have htab : s3.table = s.table := trimIdxLoop_table _ _ _ _ hloop
      show lookupKey lpn (eraseKey lpn s3.table) = none
      rw [htab]
      exact lookupKey_eraseKey_self lpn s.table hnodup

theorem lookupKey_none_updateKey (k k2 : Nat) (v : α) (l : List (Nat × α))
    (h : lookupKey k2 l = none) : lookupKey k2 (updateKey k v l) = none := by
  have h2 := lookupKey_isSome_updateKey k k2 v l
  rw [h] at h2
  simp only [Option.isSome_none] at h2
  exact Option.not_isSome_iff_eq_none.mp (by simp [h2])

theorem trimIdxLoop_none : ∀ (idxs : List Nat) (s : FTLState)
    (ml : List (Nat × Nat)) (jdx : Nat) (m : Nat × Nat), jdx ∈ idxs →
    ml.get? jdx = some m → lookupKey m.1 s.blocks = none →
    trimIdxLoop s ml idxs = none := by
  intro idxs
  induction idxs with
  | nil => intro s ml jdx m hmem; exact absurd hmem (List.not_mem_nil jdx)
  | cons i rest ih =>
      intro s ml jdx m hmem hget hnone
      simp only [trimIdxLoop]
      rcases List.mem_cons.mp hmem with hji | hji
      · subst hji
        simp only [hget, hnone]
      · cases hget2 : ml.get? i with
        | none => simp [hget2]
        | some m2 =>
            cases hlk : lookupKey m2.1 s.blocks with
            | none => simp [hget2, hlk]
            | some blk =>
                simp only [hget2, hlk]
                exact ih _ ml jdx m hji hget
                  (lookupKey_none_updateKey m2.1 m.1 _ s.blocks hnone)

theorem formatIdxLoop_none : ∀ (idxs : List Nat) (s : FTLState)
    (ml : List (Nat × Nat)) (acc : List Nat) (jdx : Nat) (m : Nat × Nat),
    jdx ∈ idxs → ml.get? jdx = some m → lookupKey m.1 s.blocks = none →
    formatIdxLoop s ml acc idxs = none := by
  intro idxs
  induction idxs with
  | nil => intro s ml acc jdx m hmem; exact absurd hmem (List.not_mem_nil jdx)
  | cons i rest ih =>
      intro s ml acc jdx m hmem hget hnone
      simp only [formatIdxLoop]
      rcases List.mem_cons.mp hmem with hji | hji
      · subst hji
        simp only [hget, hnone]
      · cases hget2 : ml.get? i with
        | none => simp [hget2]
        | some m2 =>
            cases hlk : lookupKey m2.1 s.blocks with
            | none => simp [hget2, hlk]
            | some blk =>
                simp only [hget2, hlk]
                exact ih _ ml _ jdx m hji hget
                  (lookupKey_none_updateKey m2.1 m.1 _ s.blocks hnone)

theorem formatIdxLoop_blocks_none : ∀ (idxs : List Nat) (s : FTLState)
    (ml : List (Nat × Nat)) (acc : List Nat) (s2 : FTLState) (acc2 : List Nat)
    (K : Nat), formatIdxLoop s ml acc idxs = some (s2, acc2) →
    lookupKey K s.blocks = none → lookupKey K s2.blocks = none := by
  intro idxs
  induction idxs with
  | nil =>
      intro s ml acc s2 acc2 K h hn
      simp only [formatIdxLoop, Option.some.injEq, Prod.mk.injEq] at h
      obtain ⟨h, -⟩ := h
      subst h
      exact hn
  | cons i rest ih =>
      intro s ml acc s2 acc2 K h hn
      simp only [formatIdxLoop] at h
      split at h
      · exact absurd h (by simp)
      · split at h
        · exact absurd h (by simp)
        next m2 hm2 =>
          exact ih _ _ _ _ _ _ h (lookupKey_none_updateKey _ _ _ _ hn)

theorem formatEntryLoop_none : ∀ (entries : List (Nat × List (Nat × Nat)))
    (cfg : Config) (s : FTLState) (slpn nlp : Nat) (acc : List Nat)
    (lpn jdx : Nat) (ml : List (Nat × Nat)) (m : Nat × Nat),
    (lpn, ml) ∈ entries → slpn ≤ lpn → lpn < slpn + nlp → jdx < bitsetSize cfg →
    ml.get? jdx = some m → lookupKey m.1 s.blocks = none →
    formatEntryLoop cfg s slpn nlp acc entries = none := by
  intro entries
  induction entries with
  | nil =>
      intro cfg s slpn nlp acc lpn jdx ml m hmem
      exact absurd hmem (List.not_mem_nil _)
  | cons e rest ih =>
      intro cfg s slpn nlp acc lpn jdx ml m hmem hlo hhi hj hget hnone
      simp only [formatEntryLoop]
      rcases List.mem_cons.mp hmem with he | he
      · rw [← he]
        rw [if_pos ⟨hlo, hhi⟩]
        simp only [formatIdxLoop_none (List.range (bitsetSize cfg)) s ml acc jdx m
          (List.mem_range.mpr hj) hget hnone]
      · split
        · split
          · rfl
          next p hidx =>
            refine ih _ _ _ _ _ lpn jdx ml m he hlo hhi hj hget ?_
            have h9 := formatIdxLoop_blocks_none _ _ _ _ _ _ m.1 hidx hnone
            exact h9
        · exact ih _ _ _ _ _ lpn jdx ml m he hlo hhi hj hget hnone

theorem mem_setRefreshPeriod (s : FTLState) (blockId layer rtc lvl key : Nat) :
    (lvl, key) ∈ (setRefreshPeriod s blockId layer rtc).bloomInserted ↔
      (lvl = rtc ∧ key = mkKey blockId layer) ∨ (lvl, key) ∈ s.bloomInserted := by
  have hbase : (setRefreshPeriod s blockId layer rtc).bloomInserted =
      (rtc, mkKey blockId layer) :: s.bloomInserted := by
    simp only [setRefreshPeriod]
    split
    · rfl
    · split <;> rfl
  rw [hbase]
  simp [List.mem_cons, Prod.ext_iff, eq_comm]

theorem regLoop_mem_aux (env : Env) (cfg : Config) (blockId eraseCnt layer : Nat) :
    ∀ c : Nat, c < cfg.numFilters → ∀ (s : FTLState) (lvl key : Nat),
      ((lvl, key) ∈
          (refreshRegLoop env cfg blockId eraseCnt layer c s).bloomInserted ↔
        (lvl, key) ∈ s.bloomInserted ∨
          (key = mkKey blockId layer ∧ lvl < c ∧
            env.rberGt (cfg.refreshPeriod * 1000000000 * 2 ^ lvl) eraseCnt layer =
              true)) := by
  intro c
  induction c with
  | zero =>
      intro _ s lvl key
      simp [refreshRegLoop]
  | succ c ih =>
      intro hc s lvl key
      have hne : ¬ (c + 1 = cfg.numFilters) := by omega
      simp only [refreshRegLoop, if_neg hne]
      by_cases hr : env.rberGt (cfg.refreshPeriod * 1000000000 * 2 ^ c) eraseCnt layer =
          true
      · rw [if_pos hr]
        rw [ih (by omega) _ lvl key]
        rw [mem_setRefreshPeriod]
        constructor
        · rintro ((⟨hl, hk⟩ | hmem) | ⟨hk, hl, hrb⟩)
          · subst hl
            exact Or.inr ⟨hk, by omega, hr⟩
          · exact Or.inl hmem
          · exact Or.inr ⟨hk, by omega, hrb⟩
        · rintro (hmem | ⟨hk, hl, hrb⟩)
          · exact Or.inl (Or.inr hmem)
          · rcases Nat.lt_succ_iff_lt_or_eq.mp hl with hl2 | hl2
            · exact Or.inr ⟨hk, hl2, hrb⟩
            · subst hl2
              exact Or.inl (Or.inl ⟨rfl, hk⟩)
      · rw [if_neg hr]
        rw [ih (by omega) _ lvl key]
        constructor
        · rintro (hmem | ⟨hk, hl, hrb⟩)
          · exact Or.inl hmem
          · exact Or.inr ⟨hk, by omega, hrb⟩
        · rintro (hmem | ⟨hk, hl, hrb⟩)
          · exact Or.inl hmem
          · rcases Nat.lt_succ_iff_lt_or_eq.mp hl with hl2 | hl2
            · exact Or.inr ⟨hk, hl2, hrb⟩
            · subst hl2
              exact absurd hrb hr

theorem bfSelect_odd (rem rc : Nat) (h : rc % 2 = 1) : bfSelect rem rc = 0 := by
  cases rem with
  | zero => rfl
  | succ r => simp [bfSelect, h]

theorem bfSelect_cap : ∀ (rem rc : Nat), 2 ^ rem ∣ rc → bfSelect rem rc = rem := by
  intro rem
  induction rem with
  | zero => intro rc _; rfl
  | succ r ih =>
      intro rc hdvd
      have h2 : (2 : Nat) ∣ rc :=
        dvd_trans (dvd_pow_self 2 (Nat.succ_ne_zero r)) hdvd
      have heven : rc % 2 = 0 := by omega
      simp only [bfSelect, if_pos heven]
      rw [ih (rc / 2) ?_]
      obtain ⟨k, hk⟩ := hdvd
      refine ⟨k, ?_⟩
      rw [pow_succ] at hk
      have hk2 : rc = 2 * (2 ^ r * k) := by rw [hk]; ring
      rw [hk2, Nat.mul_div_cancel_left _ (by norm_num : (0:Nat) < 2)]

theorem bfSelect_exact : ∀ (i rem rc : Nat), i < rem → rc % 2 ^ (i + 1) = 2 ^ i →
    bfSelect rem rc = i := by
  intro i
  induction i with
  | zero =>
      intro rem rc hlt hmod
      exact bfSelect_odd rem rc (by simpa using hmod)
  | succ i ih =>
      intro rem rc hlt hmod
      obtain ⟨r, hr⟩ : ∃ r, rem = r + 1 := ⟨rem - 1, by omega⟩
      subst hr
      have hdecomp := Nat.div_add_mod rc (2 ^ (i + 2))
      rw [hmod] at hdecomp
      have hrc : rc = 2 * (2 ^ (i + 1) * (rc / 2 ^ (i + 2)) + 2 ^ i) := by
        have hp : (2 : Nat) ^ (i + 2) = 2 * 2 ^ (i + 1) := by ring
        have hp2 : (2 : Nat) ^ (i + 1) = 2 * 2 ^ i := by ring
        calc rc = 2 ^ (i + 2) * (rc / 2 ^ (i + 2)) + 2 ^ (i + 1) := hdecomp.symm
          _ = 2 * (2 ^ (i + 1) * (rc / 2 ^ (i + 2)) + 2 ^ i) := by rw [hp, hp2]; ring
      have heven : rc % 2 = 0 := by omega
      simp only [bfSelect, if_pos heven]
      have hhalf : rc / 2 = 2 ^ (i + 1) * (rc / 2 ^ (i + 2)) + 2 ^ i := by
        conv_lhs => rw [hrc]
        rw [Nat.mul_div_cancel_left _ (by norm_num : (0:Nat) < 2)]
      rw [ih r (rc / 2) (by omega) ?_]
      rw [hhalf, Nat.mul_add_mod]
      exact Nat.mod_eq_of_lt (Nat.pow_lt_pow_succ (by norm_num))

/-- Characterization of the swept Bloom level: on a call count `rc ≥ 1`
with `n ≥ 1` filters, the selected filter is the position of the lowest
set bit of `rc`, capped at the highest level `n - 1`. -/
theorem bfSelect_eq_iff (n rc i : Nat) (hrc : 1 ≤ rc) :
    bfSelect (n - 1) rc = i ↔
      (i < n - 1 ∧ rc % 2 ^ (i + 1) = 2 ^ i) ∨
        (i = n - 1 ∧ rc % 2 ^ (n - 1) = 0) := by
  obtain ⟨k, m, hm2, hrc2⟩ :=
    Nat.exists_eq_pow_mul_and_not_dvd (n := rc) (by omega) 2 (by norm_num)
  have hmodd : m % 2 = 1 := by omega
  have hmod : rc % 2 ^ (k + 1) = 2 ^ k := by
    rw [hrc2, pow_succ, Nat.mul_mod_mul_left, hmodd, mul_one]
  have hdvd : 2 ^ k ∣ rc := by
    rw [hrc2]
    exact Dvd.dvd.mul_right dvd_rfl m
  constructor
  · intro hbf
    by_cases hk : k < n - 1
    · have hx := bfSelect_exact k (n - 1) rc hk hmod
      rw [hbf] at hx
      subst hx
      exact Or.inl ⟨hk, hmod⟩
    · have hge : n - 1 ≤ k := by omega
      have hdvd2 : 2 ^ (n - 1) ∣ rc := dvd_trans (pow_dvd_pow 2 hge) hdvd
      have hx := bfSelect_cap (n - 1) rc hdvd2
      rw [hbf] at hx
      subst hx
      refine Or.inr ⟨rfl, ?_⟩
      obtain ⟨c, hc⟩ := hdvd2
      rw [hc]
      exact Nat.mul_mod_right _ _
  · rintro (⟨hlt, hmod2⟩ | ⟨hi, hmod2⟩)
    · exact bfSelect_exact i (n - 1) rc hlt hmod2
    · subst hi
      exact bfSelect_cap (n - 1) rc (Nat.dvd_of_mod_eq_zero hmod2)

theorem gcReadPhase_spec (env : Env) (tick : Nat) :
    ∀ (rs : List PALReq) (s : FTLState) (rf : Nat),
      gcReadPhase env tick rs s rf =
        ({ s with
             palTrace :=
               s.palTrace ++
                 rs.map (fun r => PalEv.rd r tick (env.palReadT r tick)) },
          rs.foldl (fun a r => max a (env.palReadT r tick)) rf) := by
  intro rs
  induction rs with
  | nil => intro s rf; simp [gcReadPhase]
  | cons r rest ih =>
      intro s rf
      simp only [gcReadPhase, palRead]
      rw [ih]
      simp [List.append_assoc]

theorem gcWritePhase_spec (env : Env) (rf : Nat) :
    ∀ (ws : List PALReq) (s : FTLState) (wf : Nat),
      gcWritePhase env rf ws s wf =
        ({ s with
             palTrace :=
               s.palTrace ++
                 ws.map (fun r => PalEv.wr r rf (env.palWriteT r rf)) },
          ws.foldl (fun a r => max a (env.palWriteT r rf)) wf) := by
  intro ws
  induction ws with
  | nil => intro s wf; simp [gcWritePhase]
  | cons r rest ih =>
      intro s wf
      simp only [gcWritePhase, palWrite]
      rw [ih]
      simp [List.append_assoc]

theorem eraseInternal_trace {env : Env} {cfg : Config} {s : FTLState}
    {tick : Nat} {req : PALReq} {s2 : FTLState} {t2 : Nat}
    (h : eraseInternal env cfg s tick req = some (s2, t2)) :
    s2.palTrace = s.palTrace ++ [PalEv.er req tick (env.palEraseT req tick)] ∧
      t2 = env.palEraseT req tick + env.latEraseInternal := by
  simp only [eraseInternal, palErase] at h
  split at h
  · exact absurd h (by simp)
  next blk hblk =>
    split at h
    · exact absurd h (by simp)
    · split at h
      · split at h
        · exact absurd h (by simp)
        next fl hfl =>
          simp only [Option.some.injEq, Prod.mk.injEq] at h
          obtain ⟨h1, h2⟩ := h
          subst h1
          exact ⟨rfl, h2.symm⟩
      · simp only [Option.some.injEq, Prod.mk.injEq] at h
        obtain ⟨h1, h2⟩ := h
        subst h1
        exact ⟨rfl, h2.symm⟩

theorem gcErasePhase_spec (env : Env) (cfg : Config) (rf : Nat) :
    ∀ (es : List PALReq) (s : FTLState) (ef : Nat) (s2 : FTLState) (ef2 : Nat),
      gcErasePhase env cfg rf es s ef = some (s2, ef2) →
      s2.palTrace =
          s.palTrace ++ es.map (fun r => PalEv.er r rf (env.palEraseT r rf)) ∧
        ef2 =
          es.foldl
            (fun a r => max a (env.palEraseT r rf + env.latEraseInternal)) ef := by
  intro es
  induction es with
  | nil =>
      intro s ef s2 ef2 h
      simp only [gcErasePhase, Option.some.injEq, Prod.mk.injEq] at h
      obtain ⟨h1, h2⟩ := h
      subst h1
      simpa using h2.symm
  | cons r rest ih =>
      intro s ef s2 ef2 h
      simp only [gcErasePhase] at h
      split at h
      · exact absurd h (by simp)
      next s1 t1 herase =>
        obtain ⟨htr, htk⟩ := eraseInternal_trace herase
        obtain ⟨htr2, htk2⟩ := ih _ _ _ _ h
        refine ⟨?_, ?_⟩
        · rw [htr2, htr]
          simp [List.append_assoc]
        · rw [htk2, htk]
          simp [List.foldl_cons]

/-! ## The claims -/

/-- C1 counterexample: on the fresh two-filter FTL under an error model
whose RBER exceeds the ECC threshold exactly for periods `≥ 2·10^9` ns
(`base_period = 10^9` ns), write LPN 0.  The write lands on block 0,
layer 0; the highest level 1 is inserted, and although
`rber(base_period · 2^1) > 0.01` holds, level 0 = (i-1 for i = 1) is NOT
inserted — the code pairs the inserted level `i-1` with the period
exponent `i-1` (`j = 2^(i-1)`), not with `2^i` as the claim states. -/
theorem c1_counterexample :
    (writeFTL envC1 cfgA stInitA 0 0 [true]).isSome = true ∧
    (1, mkKey 0 0) ∈ stW1.bloomInserted ∧
    envC1.rberGt (cfgA.refreshPeriod * 1000000000 * 2 ^ 1) 0 0 = true ∧
    (0, mkKey 0 0) ∉ stW1.bloomInserted :=
  ⟨by decide, by decide, by decide, by decide⟩

/-- C1 (amended): one run of the refresh-registration loop of
`write_internal` (executed only when `send_to_pal` is true, once per
written io-unit, with `N = numFilters` levels walked from highest to
lowest) inserts the `(block, layer)` key into the highest level `N-1`
unconditionally, and into a level `lvl < N-1` exactly when
`rber(base_period · 2^lvl, erase_count, layer)` exceeds the ECC
threshold 0.01 — i.e. each inserted level is paired with its own period
exponent, one less than the exponent the claim states. -/
theorem c1_registration_levels (env : Env) (cfg : Config)
    (blockId eraseCnt layer lvl : Nat) (s : FTLState) (hn : 1 ≤ cfg.numFilters) :
    ((lvl, mkKey blockId layer) ∈
        (refreshRegLoop env cfg blockId eraseCnt layer cfg.numFilters
          s).bloomInserted ↔
      (lvl, mkKey blockId layer) ∈ s.bloomInserted ∨ lvl = cfg.numFilters - 1 ∨
        (lvl < cfg.numFilters - 1 ∧
          env.rberGt (cfg.refreshPeriod * 1000000000 * 2 ^ lvl) eraseCnt layer =
            true)) := by
  obtain ⟨n, hn2⟩ : ∃ n, cfg.numFilters = n + 1 := ⟨cfg.numFilters - 1, by omega⟩
  rw [hn2]
  simp only [refreshRegLoop]
  rw [if_pos hn2.symm]
  rw [regLoop_mem_aux env cfg blockId eraseCnt layer n (by omega) _ lvl _]
  rw [mem_setRefreshPeriod]
  simp only [Nat.add_sub_cancel]
  constructor
  · rintro ((⟨hl, -⟩ | hmem) | ⟨-, hl, hrb⟩)
    · exact Or.inr (Or.inl hl)
    · exact Or.inl hmem
    · exact Or.inr (Or.inr ⟨hl, hrb⟩)
  · rintro (hmem | hl | ⟨hl, hrb⟩)
    · exact Or.inl (Or.inr hmem)
    · exact Or.inl (Or.inl ⟨hl, by trivial⟩)
    · exact Or.inr ⟨by trivial, hl, hrb⟩

theorem c1_registration_levels_witness :
    ((0, mkKey 0 0) ∈
        (refreshRegLoop envC1 cfgA 0 0 0 cfgA.numFilters stInitA).bloomInserted ↔
      (0, mkKey 0 0) ∈ stInitA.bloomInserted ∨ 0 = cfgA.numFilters - 1 ∨
        (0 < cfgA.numFilters - 1 ∧
          envC1.rberGt (cfgA.refreshPeriod * 1000000000 * 2 ^ 0) 0 0 = true)) :=
  c1_registration_levels envC1 cfgA 0 0 0 0 stInitA (by decide)

set_option maxRecDepth 10000 in
/-- C2 counterexample: with two Bloom filters, the firing whose
pre-increment call count is 2 sweeps level 1, not level 0 (only the
level-1 true-negative counter moves over the 2·64 (block, layer) keys),
so level 0 is NOT swept every `2^0 = 1` firings as claimed; level 0 is
swept only at odd call counts, i.e. every second firing. -/
theorem c2_counterexample :
    ((refresh_event envId cfgA stC2 0).map
        (fun p => (p.1.trueNegative, p.1.refreshCallCount))) = some ([0, 128], 3) ∧
    stC2.refreshCallCount = 2 ∧
    bfSelect (cfgA.numFilters - 1) 2 = 1 :=
  ⟨by decide, by decide, by decide⟩

/-- C2 (amended): on each firing of `refresh_event`, the swept level is
the lowest-set-bit position of the pre-increment `refreshCallCount`
capped at the highest level `N-1`
(`bfSelect (N-1) count`, characterized below), and the count then
advances by exactly 1; since the count starts at 1, the first firing
sweeps level 0 and the count transitions 1 → 2.  Consequently a level
`i < N-1` is swept exactly at the firings whose pre-increment count is
`≡ 2^i (mod 2^(i+1))` — every `2^(i+1)` firings, not every `2^i` — and
the capped top level `N-1` at the counts divisible by `2^(N-1)`. -/
theorem c2_refresh_cadence (env : Env) (cfg : Config) (s : FTLState) (tick : Nat)
    (s2 : FTLState) (t2 : Nat) (i : Nat) (hrc : 1 ≤ s.refreshCallCount)
    (hev : refresh_event env cfg s tick = some (s2, t2)) :
    s2.refreshCallCount = s.refreshCallCount + 1 ∧
    (bfSelect (cfg.numFilters - 1) s.refreshCallCount = i ↔
      (i < cfg.numFilters - 1 ∧
          s.refreshCallCount % 2 ^ (i + 1) = 2 ^ i) ∨
        (i = cfg.numFilters - 1 ∧
          s.refreshCallCount % 2 ^ (cfg.numFilters - 1) = 0)) ∧
    (s.refreshCallCount = 1 → bfSelect (cfg.numFilters - 1) s.refreshCallCount = 0) := by
  refine ⟨(refresh_event_shape hev).2.2.2, bfSelect_eq_iff _ _ _ hrc, ?_⟩
  intro h1
  rw [h1]
  exact bfSelect_odd _ 1 rfl

set_option maxRecDepth 10000 in
theorem c2_refresh_cadence_witness :
    (stInitA.refreshCallCount = 1 ∧ 1 ≤ stInitA.refreshCallCount) ∧
    (((refresh_event envId cfgA stInitA 0).getD (emptyState, 0)).1.refreshCallCount =
        stInitA.refreshCallCount + 1 ∧
      (bfSelect (cfgA.numFilters - 1) stInitA.refreshCallCount = 0 ↔
        (0 < cfgA.numFilters - 1 ∧
            stInitA.refreshCallCount % 2 ^ (0 + 1) = 2 ^ 0) ∨
          (0 = cfgA.numFilters - 1 ∧
            stInitA.refreshCallCount % 2 ^ (cfgA.numFilters - 1) = 0)) ∧
      (stInitA.refreshCallCount = 1 →
        bfSelect (cfgA.numFilters - 1) stInitA.refreshCallCount = 0)) :=
  ⟨⟨by decide, by decide⟩,
   c2_refresh_cadence envId cfgA stInitA 0
     ((refresh_event envId cfgA stInitA 0).getD (emptyState, 0)).1
     ((refresh_event envId cfgA stInitA 0).getD (emptyState, 0)).2 0
     (by decide) (by decide)⟩

/-- C6 counterexample: GC of block 0 on the written two-block FTL, under
a DRAM model that charges one tick per mapping-table read.  The
collection loop charges the DRAM read to the shared tick BEFORE any PAL
I/O is issued, so the queued PAL read begins at tick 1, not at the
pre-GC tick 0 as the claim states. -/
theorem c6_counterexample :
    ((doGarbageCollection envC6 cfgA stWriteA 0 [0]).map
        (fun p => (p.1.palTrace.drop stWriteA.palTrace.length, p.2))) =
      some ([PalEv.rd ⟨0, 0, [true]⟩ 1 1, PalEv.wr ⟨1, 0, [true]⟩ 1 1,
             PalEv.er ⟨0, 0, [true]⟩ 1 1], 1) ∧
    (1 : Nat) ≠ 0 :=
  ⟨by decide, by decide⟩

/-- C6 (amended): in one `doGarbageCollection` call on a non-empty victim
list, every PAL read begins at the POST-collection tick `t1` (the pre-GC
tick advanced by the DRAM mapping-table charges of the collection loop),
not at the pre-GC tick; every PAL write begins at
`readFinishedAt = rf`, the fold of `max` over the read finish times
initialized at the pre-GC tick; every erase also begins at `rf`, in
parallel with the writes; and the resulting tick is the maximum of the
write and erase finish times (each erase finish includes the fixed
`eraseInternal` CPU latency) plus the fixed GC CPU latency. -/
theorem c6_gc_timing (env : Env) (cfg : Config) (s : FTLState) (tick : Nat)
    (list : List Nat) (s1 : FTLState) (t1 : Nat) (reqs : GCReqs)
    (s2 : FTLState) (t2 rf wf ef : Nat)
    (hne : list ≠ [])
    (hcol : gcCollectBlockLoop env cfg s tick [] [] [] list = some (s1, t1, reqs))
    (hgc : doGarbageCollection env cfg s tick list = some (s2, t2))
    (hrf : rf = reqs.reads.foldl (fun a r => max a (env.palReadT r t1)) tick)
    (hwf : wf = reqs.writes.foldl (fun a r => max a (env.palWriteT r rf)) tick)
    (hef : ef = reqs.erases.foldl
        (fun a r => max a (env.palEraseT r rf + env.latEraseInternal)) tick) :
    s2.palTrace = s1.palTrace
        ++ reqs.reads.map (fun r => PalEv.rd r t1 (env.palReadT r t1))
        ++ reqs.writes.map (fun r => PalEv.wr r rf (env.palWriteT r rf))
        ++ reqs.erases.map (fun r => PalEv.er r rf (env.palEraseT r rf))
      ∧ t2 = max wf ef + env.latDoGC := by
  subst hrf
  subst hwf
  subst hef
  simp only [doGarbageCollection] at hgc
  split at hgc
  next hemp =>
    cases list with
    | nil => exact absurd rfl hne
    | cons a l => exact absurd hemp (by simp)
  · split at hgc
    · exact absurd hgc (by simp)
    next s1b t1b reqsb hcollect =>
      rw [hcol] at hcollect
      simp only [Option.some.injEq, Prod.mk.injEq] at hcollect
      obtain ⟨h1, h2, h3⟩ := hcollect
      subst h1
      subst h2
      subst h3
      simp only [gcReadPhase_spec, gcWritePhase_spec] at hgc
      split at hgc
      · exact absurd hgc (by simp)
      next s4 ef1 herase =>
        simp only [Option.some.injEq, Prod.mk.injEq] at hgc
        obtain ⟨hs4, ht2⟩ := hgc
        subst hs4
        obtain ⟨htr, hef2⟩ := gcErasePhase_spec env cfg _ reqs.erases _ tick s4 ef1 herase
        refine ⟨?_, ?_⟩
        · rw [htr]
        · rw [← ht2, hef2]

set_option maxRecDepth 10000 in
theorem c6_gc_timing_witness :
    gcRunC6.1.palTrace = gcColC6.1.palTrace
        ++ gcColC6.2.2.reads.map
            (fun r => PalEv.rd r gcColC6.2.1 (envC6.palReadT r gcColC6.2.1))
        ++ gcColC6.2.2.writes.map (fun r => PalEv.wr r 1 (envC6.palWriteT r 1))
        ++ gcColC6.2.2.erases.map (fun r => PalEv.er r 1 (envC6.palEraseT r 1))
      ∧ gcRunC6.2 = max 1 1 + envC6.latDoGC :=
  c6_gc_timing envC6 cfgA stWriteA 0 [0] gcColC6.1 gcColC6.2.1 gcColC6.2.2
    gcRunC6.1 gcRunC6.2 1 1 1 (by decide) (by decide) (by decide) (by decide)
    (by decide) (by decide)

/-- C3 counterexample: from the freshly initialized two-block FTL, write
LPN 0 (a public operation, so the pre-state of the format is reachable),
then `format` the range `[0, 1)`.  The format's GC erases block 0, whose
post-erase erase count 1 reaches `bad_block_threshold = 1`, so the block
is silently retired: afterwards `nFreeBlocks + |blocks| = 1`, not
`total_physical_blocks = 2` — the claimed invariant `n_free + |in_use| =
total` is false after this public operation. -/
theorem c3_counterexample :
    Reachable envId cfgA (stWriteA, 0) ∧
    ((formatFTL envId cfgA stWriteA 0 0 1).map
        (fun p => p.1.nFreeBlocks + p.1.blocks.length)) = some 1 ∧
    cfgA.totalPhysicalBlocks = 2 := by
  refine ⟨Reachable.step (stInitA, 0) (stWriteA, 0)
      (Reachable.init stInitA (by decide))
      (PubStep.write stInitA 0 0 [true] stWriteA 0 (by decide)),
    by decide, by decide⟩

/-- C3 (amended): after every public operation — read, write, trim,
format, refresh event — the free-block count plus the in-use block count
plus the number of blocks retired at `bad_block_threshold` (the ghost
field `retiredBlocks`) equals `total_physical_blocks`; a bad-block
retirement moves a block from the in-use map into the retired count, not
back to the free pool, so the plain sum `n_free + |in_use|` drops by one
at each retirement. -/
theorem c3_pool_accounting (env : Env) (cfg : Config) (st : FTLState × Nat)
    (h : Reachable env cfg st) :
    st.1.nFreeBlocks + st.1.blocks.length + st.1.retiredBlocks =
      cfg.totalPhysicalBlocks :=
  (reachable_inv h).1

theorem c3_pool_accounting_witness :
    stInitA.nFreeBlocks + stInitA.blocks.length + stInitA.retiredBlocks =
      cfgA.totalPhysicalBlocks :=
  c3_pool_accounting envId cfgA (stInitA, 0) (Reachable.init stInitA (by decide))

/-- C4: `eraseInternal` is fatal unless the victim's valid page count is
zero; the erase increments the erase count by exactly one (the `Block`
erase contract); when the post-erase count reaches `bad_block_threshold`
the block is removed from the in-use map and discarded (retired), the
free pool untouched; when it stays below the threshold the block is
removed from the in-use map and reinserted into the free pool at the
reverse-scan position, with the free counter incremented. -/
theorem c4_erase_internal_contract (env : Env) (cfg : Config) (s : FTLState)
    (tick : Nat) (req : PALReq) (blk : Block)
    (hblk : lookupKey req.blockIndex s.blocks = some blk) :
    (blk.validPageCount ≠ 0 → eraseInternal env cfg s tick req = none) ∧
    blk.eraseBlock.eraseCount = blk.eraseCount + 1 ∧
    (blk.validPageCount = 0 → cfg.badBlockThreshold ≤ blk.eraseCount + 1 →
      eraseInternal env cfg s tick req =
        some ({ s with
                  blocks := eraseKey req.blockIndex
                    (updateKey req.blockIndex blk.eraseBlock s.blocks)
                  retiredBlocks := s.retiredBlocks + 1
                  palTrace := s.palTrace ++ [PalEv.er req tick (env.palEraseT req tick)] },
              env.palEraseT req tick + env.latEraseInternal)) ∧
    (blk.validPageCount = 0 → blk.eraseCount + 1 < cfg.badBlockThreshold →
      ∀ b0 rest, s.freeBlocks = b0 :: rest →
        eraseInternal env cfg s tick req =
          some ({ s with
                    blocks := eraseKey req.blockIndex
                      (updateKey req.blockIndex blk.eraseBlock s.blocks)
                    freeBlocks := insertAt s.freeBlocks
                      (backScanPos blk.eraseBlock.eraseCount s.freeBlocks.reverse)
                      blk.eraseBlock
                    nFreeBlocks := s.nFreeBlocks + 1
                    palTrace := s.palTrace ++ [PalEv.er req tick (env.palEraseT req tick)] },
                env.palEraseT req tick + env.latEraseInternal)) := by
  refine ⟨?_, rfl, ?_, ?_⟩
  · intro hv
    simp [eraseInternal, hblk, hv]
  · intro hv hge
    have hnlt : ¬ blk.eraseBlock.eraseCount < cfg.badBlockThreshold := by
      simp only [Block.eraseBlock]
      omega
    simp [eraseInternal, palErase, hblk, hv, hnlt]
  · intro hv hlt b0 rest hfb
    have hlt2 : blk.eraseBlock.eraseCount < cfg.badBlockThreshold := by
      simp only [Block.eraseBlock]
      omega
    simp [eraseInternal, palErase, hblk, hv, hlt2, hfb, freeListReinsert]

theorem c4_erase_internal_contract_witness :
    lookupKey 3 stC4.blocks = some (blkC4 3 0) ∧
    ((blkC4 3 0).validPageCount = 0 →
      (blkC4 3 0).eraseCount + 1 < cfgC4.badBlockThreshold →
      ∀ b0 rest, stC4.freeBlocks = b0 :: rest →
        eraseInternal envId cfgC4 stC4 0 ⟨3, 0, [true]⟩ =
          some ({ stC4 with
                    blocks := eraseKey 3 (updateKey 3 (blkC4 3 0).eraseBlock stC4.blocks)
                    freeBlocks := insertAt stC4.freeBlocks
                      (backScanPos (blkC4 3 0).eraseBlock.eraseCount stC4.freeBlocks.reverse)
                      (blkC4 3 0).eraseBlock
                    nFreeBlocks := stC4.nFreeBlocks + 1
                    palTrace := stC4.palTrace ++
                      [PalEv.er ⟨3, 0, [true]⟩ 0 (envId.palEraseT ⟨3, 0, [true]⟩ 0)] },
                envId.palEraseT ⟨3, 0, [true]⟩ 0 + envId.latEraseInternal)) :=
  ⟨by decide,
   (c4_erase_internal_contract envId cfgC4 stC4 0 ⟨3, 0, [true]⟩ (blkC4 3 0)
      (by decide)).2.2.2⟩

/-- C5: the free list is sorted by ascending erase count in every
reachable state (adjacent pairs non-decreasing); moreover `getFreeBlock`
only removes elements from the free list, and the reverse-scan
reinsertion preserves sortedness. -/
theorem c5_free_list_sorted (env : Env) (cfg : Config) (st : FTLState × Nat)
    (h : Reachable env cfg st) :
    List.Chain' ecLE st.1.freeBlocks ∧
    (∀ (s : FTLState) (tick idx bid : Nat) (s2 : FTLState),
        getFreeBlock cfg s tick idx = some (bid, s2) →
        s2.freeBlocks.Sublist s.freeBlocks) ∧
    (∀ (b : Block) (l fl : List Block), List.Pairwise ecLE l →
        freeListReinsert b l = some fl → List.Pairwise ecLE fl) := by
  refine ⟨?_, ?_, ?_⟩
  · exact List.chain'_iff_pairwise.mpr (reachable_inv h).2.1
  · intro s tick idx bid s2 hget
    exact getFreeBlock_freeBlocks_sublist hget
  · intro b l fl hs hre
    exact freeListReinsert_pairwise hs hre

theorem c5_free_list_sorted_witness :
    List.Chain' ecLE stInitA.freeBlocks :=
  (c5_free_list_sorted envId cfgA (stInitA, 0) (Reachable.init stInitA (by decide))).1

/-- C8: a read or write whose io-map has no bit set does nothing — the
returned state (mapping table, blocks, free pool, PAL trace) is exactly
the input state — and the tick advances by exactly the operation's fixed
CPU latency. -/
theorem c8_empty_request (env : Env) (cfg : Config) (s : FTLState) (tick lpn : Nat)
    (ioFlag : List Bool) (h : bitCount ioFlag = 0) :
    readFTL env cfg s tick lpn ioFlag = some (s, tick + env.latRead) ∧
    writeFTL env cfg s tick lpn ioFlag = some (s, tick + env.latWrite) := by
  constructor
  · simp [readFTL, h]
  · simp [writeFTL, h]

theorem c8_empty_request_witness :
    readFTL envId cfgA stInitA 7 3 [false] = some (stInitA, 7 + envId.latRead) ∧
    writeFTL envId cfgA stInitA 7 3 [false] = some (stInitA, 7 + envId.latWrite) :=
  c8_empty_request envId cfgA stInitA 7 3 [false] (by decide)

/-- C10: the free-list reinsertion of `eraseInternal` decrements the
`end()` iterator before any emptiness check, so it is undefined
(modelled `none`) exactly on the empty free list: reinsertion is `none`
on `[]`, defined on every non-empty list, and an `eraseInternal` that
must return the block to the pool (valid count 0, post-erase count below
the threshold) has no defined result when the free list is empty. -/
theorem c10_reinsert_needs_nonempty (env : Env) (cfg : Config) (s : FTLState)
    (tick : Nat) (req : PALReq) (blk : Block) (b : Block) (l : List Block)
    (hblk : lookupKey req.blockIndex s.blocks = some blk)
    (hv : blk.validPageCount = 0)
    (hlt : blk.eraseCount + 1 < cfg.badBlockThreshold)
    (hempty : s.freeBlocks = []) :
    freeListReinsert b [] = none ∧
    (l ≠ [] → (freeListReinsert b l).isSome = true) ∧
    eraseInternal env cfg s tick req = none := by
  refine ⟨rfl, ?_, ?_⟩
  · intro hne
    cases l with
    | nil => exact absurd rfl hne
    | cons x xs => simp [freeListReinsert]
  · have hlt2 : blk.eraseBlock.eraseCount < cfg.badBlockThreshold := by
      simp only [Block.eraseBlock]
      omega
    simp [eraseInternal, palErase, hblk, hv, hlt2, hempty, freeListReinsert]

/-- C7: once a `trim` of an LPN has succeeded, trimming the same LPN
again — at any tick, with any io-map, under any environment — returns
the state unchanged (the LPN is no longer mapped, so `trimInternal`
finds nothing and only the fixed CPU latency is charged).  The key
uniqueness of the mapping table (`std::unordered_map`) is the `hnodup`
hypothesis. -/
theorem c7_trim_idempotent (env env2 : Env) (cfg : Config) (s : FTLState)
    (tick tick2 lpn : Nat) (ioFlag ioFlag2 : List Bool) (s1 : FTLState) (t1 : Nat)
    (hnodup : (s.table.map Prod.fst).Nodup)
    (h : trimFTL env cfg s tick lpn ioFlag = some (s1, t1)) :
    trimFTL env2 cfg s1 tick2 lpn ioFlag2 = some (s1, tick2 + env2.latTrim) := by
  have hint : ∃ t1b, trimInternal env cfg s tick lpn ioFlag = some (s1, t1b) := by
    simp only [trimFTL] at h
    split at h
    · exact absurd h (by simp)
    next s1b t1b hti =>
      simp only [Option.some.injEq, Prod.mk.injEq] at h
      obtain ⟨h, -⟩ := h
      subst h
      exact ⟨t1b, hti⟩
  obtain ⟨t1b, hint⟩ := hint
  have hnone := trimInternal_unmaps hnodup hint
  simp [trimFTL, trimInternal, hnone]

theorem c7_trim_idempotent_witness :
    trimFTL envId cfgA stTrimA 9 0 [true] = some (stTrimA, 9 + envId.latTrim) :=
  c7_trim_idempotent envId envId cfgA stWriteA 0 9 0 [true] [true] stTrimA 0
    (by decide) (by decide)

/-- C9: if an LPN is mapped but one of its slots holds a block index
that is not in the in-use map — as the sentinel `(total_physical_blocks,
pages_in_block)` left in the untouched slots by a first random-tweak
write with a partial io-map — then both `trim` of that LPN and `format`
of a range containing it hit the fatal "Block is not in use" abort
(modelled `none`), because both walk every slot of the mapping vector,
sentinel slots included. -/
theorem c9_sentinel_panics (env : Env) (cfg : Config) (s : FTLState)
    (tick2 tick3 lpn slpn nlp jdx : Nat) (ml : List (Nat × Nat)) (ioFlag : List Bool)
    (hml : lookupKey lpn s.table = some ml)
    (hj : jdx < bitsetSize cfg)
    (hsent : ml.get? jdx = some (cfg.totalPhysicalBlocks, cfg.pagesInBlock))
    (hnot : lookupKey cfg.totalPhysicalBlocks s.blocks = none)
    (hlo : slpn ≤ lpn) (hhi : lpn < slpn + nlp) :
    trimFTL env cfg s tick2 lpn ioFlag = none ∧
    formatFTL env cfg s tick3 slpn nlp = none := by
  constructor
  · have hloop := trimIdxLoop_none (List.range (bitsetSize cfg)) s ml jdx
      (cfg.totalPhysicalBlocks, cfg.pagesInBlock) (List.mem_range.mpr hj) hsent hnot
    simp [trimFTL, trimInternal, hml, hloop]
  · have hentry := formatEntryLoop_none s.table cfg s slpn nlp [] lpn jdx ml
      (cfg.totalPhysicalBlocks, cfg.pagesInBlock) (lookupKey_mem lpn s.table ml hml)
      hlo hhi hj hsent hnot
    simp [formatFTL, hentry]

theorem c9_sentinel_panics_witness :
    trimFTL envId cfg9 stW9 5 0 [true, true] = none ∧
    formatFTL envId cfg9 stW9 7 0 1 = none :=
  c9_sentinel_panics envId cfg9 stW9 5 7 0 0 1 1 [(0, 0), (4, 2)] [true, true]
    (by decide) (by decide) (by decide) (by decide) (by decide) (by decide)

theorem c10_reinsert_needs_nonempty_witness :
    freeListReinsert (blkC4 0 0) [] = none ∧
    ([blkC4 1 5] ≠ ([] : List Block) →
      (freeListReinsert (blkC4 0 0) [blkC4 1 5]).isSome = true) ∧
    eraseInternal envId cfgC4 stC4e 0 ⟨3, 0, [true]⟩ = none :=
  c10_reinsert_needs_nonempty envId cfgC4 stC4e 0 ⟨3, 0, [true]⟩ (blkC4 3 0)
    (blkC4 0 0) [blkC4 1 5] (by decide) (by decide) (by decide) (by decide)

end Ssd
